import Mathlib

/-!
Shallow embedding of the Statement Transaction Reconstruction Engine of
`lsuite/gmail/parsers.py` (class `PDFParser`), together with theorems that
settle the specification claims about it.

Modelling conventions:
* Python strings are modelled as `List Char` (the engine only manipulates
  text); `str.strip`, `str.split`, `str.replace`, `str.lower`, `in` are
  modelled by executable functions below that follow CPython semantics on
  the ASCII texts the engine handles.
* Python floats are modelled as `ℚ`: every amount handled by the engine is
  a short decimal numeral, on which float arithmetic (parsing, comparison,
  `abs`, copying) is exact, so `ℚ` is a faithful model of the values used.
* `datetime.date` is modelled by `Date` (validity rules of
  `datetime.strptime` included: month ranges, month lengths, leap years,
  years 1..9999).
* The regular expressions of the Capitec and TymeBank parsers are compiled
  by hand into deterministic matching functions (their backtracking
  behaviour is resolved statically and noted at each definition); the
  generic parser's `re.findall` patterns are executed by a small
  backtracking regex interpreter (`reM`).
* Dictionaries produced by the parsers are modelled by the structure `Txn`;
  the `category` and `fee` keys, which some parsers omit, are wrapped in
  `Option` where `none` means the key is absent from the dictionary.
-/

namespace LSWeb

/-- Value of a run of decimal digit characters (most significant first). -/
def digitsVal (cs : List Char) : ℕ :=
  cs.foldl (fun a c => 10 * a + (c.toNat - 48)) 0

/-- Decimal digit character for `n < 10`. -/
def digitChar (n : ℕ) : Char := Char.ofNat (48 + n)

/-- Helper of `natChars`, structurally recursive on a fuel bound (any
`fuel > n` gives the digit string; kernel-computable, unlike well-founded
recursion). -/
def natCharsAux : ℕ → ℕ → List Char
  | 0, _ => []
  | fuel + 1, n =>
    if n < 10 then [digitChar n]
    else natCharsAux fuel (n / 10) ++ [digitChar (n % 10)]

/-- Decimal representation of a natural number, as CPython `str`/`%d`
renders it (no sign, no padding). -/
def natChars (n : ℕ) : List Char := natCharsAux (n + 1) n

lemma natCharsAux_congr : ∀ n fuel fuel', n < fuel → n < fuel' →
    natCharsAux fuel n = natCharsAux fuel' n := by
  intro n
  induction n using Nat.strong_induction_on with
  | _ n ih =>
    intro fuel fuel' hf hf'
    match fuel, fuel' with
    | f + 1, f' + 1 =>
      simp only [natCharsAux]
      split
      · rfl
      · have hd : n / 10 < n := Nat.div_lt_self (by omega) (by omega)
        rw [ih (n / 10) hd f f' (by omega) (by omega)]

/-- Unfolding equation of `natChars` in its natural recursive form. -/
lemma natChars_eq (n : ℕ) : natChars n =
    if n < 10 then [digitChar n]
    else natChars (n / 10) ++ [digitChar (n % 10)] := by
  show natCharsAux (n + 1) n = _
  simp only [natCharsAux]
  split
  · rfl
  · rename_i h10
    have hd : n / 10 < n := Nat.div_lt_self (by omega) (by omega)
    rw [natCharsAux_congr (n / 10) n (n / 10 + 1) (by omega) (by omega)]
    rfl

/-- CPython `f"{n:04d}"`: decimal digits left-padded with zeros to width 4. -/
def pad4 (n : ℕ) : List Char :=
  List.replicate (4 - (natChars n).length) '0' ++ natChars n

/-- CPython `f"{n:02d}"`: decimal digits left-padded with zeros to width 2. -/
def pad2 (n : ℕ) : List Char :=
  List.replicate (2 - (natChars n).length) '0' ++ natChars n

/-- Python `str.lower` (ASCII range, which covers every keyword the engine
compares against). -/
def lowerStr (cs : List Char) : List Char := cs.map Char.toLower

/-- Python `sub in s` (contiguous substring test). -/
def containsSub (s pat : List Char) : Bool := decide (pat <:+: s)

/-- Python `str.strip()` (both ends; `Char.isWhitespace` covers the
whitespace the extracted statements contain). -/
def wsTrim (cs : List Char) : List Char :=
  ((cs.dropWhile Char.isWhitespace).reverse.dropWhile Char.isWhitespace).reverse

/-- Python `str.rstrip()`-like helper (used when regex `\s*$`
anchoring is resolved). -/
def wsTrimR (cs : List Char) : List Char :=
  (cs.reverse.dropWhile Char.isWhitespace).reverse

/-- Helper of `splitWS`: accumulates the current token (reversed). -/
def splitWSAux : List Char → List Char → List (List Char)
  | [], cur => if cur.isEmpty then [] else [cur.reverse]
  | c :: rest, cur =>
    if c.isWhitespace then
      if cur.isEmpty then splitWSAux rest [] else cur.reverse :: splitWSAux rest []
    else splitWSAux rest (c :: cur)

/-- Python `str.split()` with no argument: whitespace-separated tokens,
empty tokens discarded. -/
def splitWS (cs : List Char) : List (List Char) := splitWSAux cs []

/-- Python `' '.join(s.split())`: whitespace normalisation. -/
def wsNormalize (cs : List Char) : List Char :=
  List.intercalate [' '] (splitWS cs)

/-- Helper of `removeAll`, structurally recursive on a fuel bound (any
`fuel ≥ cs.length` computes the full replacement). -/
def removeAllAux (pat : List Char) : ℕ → List Char → List Char
  | 0, cs => cs
  | fuel + 1, cs =>
    match cs with
    | [] => []
    | c :: rest =>
      if !pat.isEmpty && pat.isPrefixOf (c :: rest) then
        removeAllAux pat fuel (rest.drop (pat.length - 1))
      else c :: removeAllAux pat fuel rest

/-- Python `str.replace(pat, '')` (non-overlapping, left to right). -/
def removeAll (pat : List Char) (cs : List Char) : List Char :=
  removeAllAux pat cs.length cs

lemma removeAllAux_congr (pat : List Char) : ∀ n cs fuel fuel', cs.length ≤ fuel →
    cs.length ≤ fuel' → cs.length ≤ n → removeAllAux pat fuel cs = removeAllAux pat fuel' cs := by
  intro n
  induction n with
  | zero =>
    intro cs fuel fuel' h1 h2 hn
    have : cs = [] := List.eq_nil_of_length_eq_zero (by omega)
    subst this
    match fuel, fuel' with
    | 0, 0 => rfl
    | 0, _ + 1 => rfl
    | _ + 1, 0 => rfl
    | _ + 1, _ + 1 => rfl
  | succ n ih =>
    intro cs fuel fuel' h1 h2 hn
    match cs with
    | [] =>
      match fuel, fuel' with
      | 0, 0 => rfl
      | 0, _ + 1 => rfl
      | _ + 1, 0 => rfl
      | _ + 1, _ + 1 => rfl
    | c :: rest =>
      simp only [List.length_cons] at h1 h2 hn
      match fuel, fuel' with
      | f + 1, f' + 1 =>
        simp only [removeAllAux]
        split
        · exact ih _ f f' (by simp [List.length_drop]; omega)
            (by simp [List.length_drop]; omega) (by simp [List.length_drop]; omega)
        · rw [ih rest f f' (by omega) (by omega) (by omega)]

/-- Unfolding equation of `removeAll` in its natural recursive form. -/
lemma removeAll_eq (pat : List Char) (cs : List Char) : removeAll pat cs =
    match cs with
    | [] => []
    | c :: rest =>
      if !pat.isEmpty && pat.isPrefixOf (c :: rest) then
        removeAll pat (rest.drop (pat.length - 1))
      else c :: removeAll pat rest := by
  match cs with
  | [] => rfl
  | c :: rest =>
    show removeAllAux pat (rest.length + 1) (c :: rest) = _
    simp only [removeAllAux]
    split
    · exact removeAllAux_congr pat rest.length (rest.drop (pat.length - 1)) rest.length
        (rest.drop (pat.length - 1)).length (by simp [List.length_drop]) (le_refl _)
        (by simp [List.length_drop])
    · rfl

/-- Calendar date as produced by `datetime.strptime(...).date()`. -/
structure Date where
  year : ℕ
  month : ℕ
  day : ℕ
deriving DecidableEq, Repr

/-- Gregorian leap-year rule (as `datetime` implements it). -/
def isLeap (y : ℕ) : Bool := (y % 4 == 0 && y % 100 != 0) || y % 400 == 0

/-- Length of a month, as `datetime` validates day-of-month. -/
def daysInMonth (y m : ℕ) : ℕ :=
  if m == 2 then (if isLeap y then 29 else 28)
  else if m == 4 || m == 6 || m == 9 || m == 11 then 30 else 31

/-- The dates `datetime.strptime` accepts: years 1..9999, valid month and
day-of-month. -/
def validDate (d : Date) : Prop :=
  1 ≤ d.year ∧ d.year ≤ 9999 ∧ 1 ≤ d.month ∧ d.month ≤ 12 ∧
  1 ≤ d.day ∧ d.day ≤ daysInMonth d.year d.month

instance (d : Date) : Decidable (validDate d) := by
  unfold validDate; infer_instance

/-- Construction step shared by all `strptime` call sites: returns `none`
exactly when `strptime` raises `ValueError` (which every parser catches by
skipping the line). -/
def mkValidDate (dd mm yy : ℕ) : Option Date :=
  if 1 ≤ yy ∧ yy ≤ 9999 ∧ 1 ≤ mm ∧ mm ≤ 12 ∧ 1 ≤ dd ∧ dd ≤ daysInMonth yy mm
  then some ⟨yy, mm, dd⟩ else none

/-- Strictly monotone integer encoding of valid dates; stands in for
`date.toordinal()`, whose only use (`_sort_by_balance`) depends solely on
the order and equality of ordinals, which this encoding preserves. -/
def dateNum (d : Date) : ℕ := d.year * 416 + d.month * 32 + d.day

/-- The `strftime('%Y%m%d')` rendering of a date. -/
def fmtDate (d : Date) : List Char := pad4 d.year ++ pad2 d.month ++ pad2 d.day

/-- One parsed transaction: the dictionary each parser appends to its
`transactions` list.  `category`/`fee` are `none` when the parser does not
put the key into the dictionary at all (TymeBank, generic); the Capitec
parser always stores the keys, with `category possibly `None`
(`some none`). -/
structure Txn where
  date : Date
  description : String
  amount : ℚ
  typ : String
  reference : String
  category : Option (Option String)
  fee : Option ℚ
  balance : ℚ
deriving DecidableEq, Repr

/-- Numeric digit value of a digit character. -/
def dv (c : Char) : ℕ := c.toNat - 48

/-- Model of CPython `float(s)` on the strings this engine feeds it:
optional surrounding whitespace, optional sign, ASCII digits with at most
one decimal point, at least one digit.  CPython's `float` additionally
accepts exponent and underscore forms, the spellings
`inf`/`Infinity`/`nan` (case-insensitive), and non-ASCII Unicode decimal
digits; the engine can never feed it such a token (every call site passes
a regex capture made of ASCII digits, commas, at most one period and an
optional leading minus), so those forms are outside the modeled domain
and the model answers `none` on them.  No theorem below quantifies over
that unmodeled region: statements about tokens with no digits explicitly
exclude letters and non-ASCII characters. -/
def pyFloatVal? (body : List Char) : Option ℚ :=
  let ip := body.takeWhile Char.isDigit
  let rest := body.drop ip.length
  match rest with
  | [] => if ip.isEmpty then none else some (mkRat (Int.ofNat (digitsVal ip)) 1)
  | '.' :: fr =>
    let fp := fr.takeWhile Char.isDigit
    if !(fr.drop fp.length).isEmpty then none
    else if ip.isEmpty && fp.isEmpty then none
    else some (mkRat (Int.ofNat (digitsVal ip * 10 ^ fp.length + digitsVal fp)) (10 ^ fp.length))
  | _ => none

def pyFloat? (cs : List Char) : Option ℚ :=
  match wsTrim cs with
  | '-' :: r => (pyFloatVal? r).map Neg.neg
  | '+' :: r => pyFloatVal? r
  | t => pyFloatVal? t

/-- The inner `parse_amount` of `_parse_capitec_improved`: strips commas
and spaces, negates after an explicit leading minus, and yields `0.0`
whenever `float()` would raise. -/
def parse_amount (cs : List Char) : ℚ :=
  if cs.isEmpty || cs = ['-'] || (wsTrim cs).isEmpty then 0
  else
    let cleaned := wsTrim (removeAll [' '] (removeAll [','] cs))
    match cleaned with
    | '-' :: r =>
      match pyFloat? r with
      | some v => -v
      | none => 0
    | _ =>
      match pyFloat? cleaned with
      | some v => v
      | none => 0

/-- Python `text.split('\n')` helper (accumulator holds the current line
reversed). -/
def splitNLAux : List Char → List Char → List (List Char)
  | [], cur => [cur.reverse]
  | c :: rest, cur =>
    if c = '\n' then cur.reverse :: splitNLAux rest []
    else splitNLAux rest (c :: cur)

/-- Python `text.split('\n')`. -/
def splitNL (cs : List Char) : List (List Char) := splitNLAux cs []

/-- The `credit_keywords` list of `is_credit_transaction`. -/
def credit_keywords : List String := [
  "payment received", "received", "payshap payment received",
  "deposit", "interest", "transfer received", "refund",
  "dispute", "set-off", "received:", "income", "sweep"]

/-- The `debit_keywords` list of `is_credit_transaction`. -/
def debit_keywords : List String := [
  "purchase", "payment:", "cash sent", "cash withdrawal",
  "prepaid purchase", "voucher", "debit order",
  "transfer to", "external payment", "immediate payment",
  "card replacement", "admin fee", "withdrawal", "capitec pay",
  "fee", "charge", "round-up"]

/-- The credit/debit classifier `is_credit_transaction` of
`_parse_capitec_improved`: description credit keywords, then description
debit keywords, then category keywords, then the `False` (= debit)
fallback. -/
def is_credit_transaction (description : List Char) (category : Option (List Char)) : Bool :=
  let desc_lower := lowerStr description
  let cat_lower := lowerStr (category.getD [])
  if credit_keywords.any (fun kw => containsSub desc_lower kw.data) then true
  else if debit_keywords.any (fun kw => containsSub desc_lower kw.data) then false
  else if ["income", "interest", "received"].any (fun w => containsSub cat_lower w.data) then true
  else if ["withdrawal", "fees", "payments", "purchase"].any (fun w => containsSub cat_lower w.data) then false
  else false

/-- The category vocabulary of `extract_category`, in source order. -/
def categories : List String := [
  "Other Income", "Investment Income", "Transfer", "Cash Withdrawal",
  "Digital Payments", "Cellphone", "Groceries", "Takeaways",
  "Online Store", "Furniture & Appliances", "Uncategorised",
  "Investments", "Savings", "Fees", "Interest", "Alcohol",
  "Other Personal & Family", "Transfers"]

/-- The `extract_category` helper: first (in list order) vocabulary entry
the text ends with is split off; the remaining prefix is stripped. -/
def extract_category (t : List Char) : List Char × Option (List Char) :=
  match categories.find? (fun c => c.data.isSuffixOf t) with
  | some c => (wsTrim (t.take (t.length - c.data.length)), some c.data)
  | none => (t, none)

/-- Tail `\.\d{2}` of the amount regex, in whole-token position (nothing
may follow). -/
def fracEnd : List Char → Bool
  | ['.', a, b] => a.isDigit && b.isDigit
  | _ => false

/-- Tail `(?:,\d{3})*\.\d{2}` of the amount regex
`-?\d{1,3}(?:,\d{3})*\.\d{2}`, in whole-token position.  Backtracking
note: dropping a greedy `,\d{3}` repetition leaves `,` facing `\.`, which
always fails, so the greedy maximal parse is the only candidate. -/
def amtTailAux : ℕ → List Char → Bool
  | 0, cs => fracEnd cs
  | fuel + 1, cs =>
    match cs with
    | ',' :: rest =>
      (rest.take 3).length == 3 && (rest.take 3).all Char.isDigit && amtTailAux fuel (rest.drop 3)
    | _ => fracEnd cs

def amtTail (cs : List Char) : Bool := amtTailAux cs.length cs

/-- Whole-token match of `-?\d{1,3}(?:,\d{3})*\.\d{2}`.  In
`pattern_3amt`/`pattern_2amt` every amount group is delimited by `\s+` on
the left and `\s+`/`\s*$` on the right, so it must cover a complete
whitespace-delimited token; `\d{1,3}` can only take the full leading digit
run (a shorter take leaves a digit facing `,` or `\.`). -/
def amtTok (cs : List Char) : Bool :=
  let body := match cs with | '-' :: r => r | _ => cs
  let ds := body.takeWhile Char.isDigit
  !ds.isEmpty && decide (ds.length ≤ 3) && amtTail (body.drop ds.length)

/-- Prefix-position variant of `amtTail`: returns the number of characters
consumed (arbitrary text may follow the matched `\.\d{2}`). -/
def amtTailPrefAux : ℕ → List Char → Option ℕ
  | 0, _ => none
  | fuel + 1, cs =>
    match cs with
    | ',' :: rest =>
      if (rest.take 3).length == 3 && (rest.take 3).all Char.isDigit then
        match amtTailPrefAux fuel (rest.drop 3) with
        | some n => some (4 + n)
        | none => none
      else none
    | '.' :: a :: b :: _ => if a.isDigit && b.isDigit then some 3 else none
    | _ => none

def amtTailPref (cs : List Char) : Option ℕ := amtTailPrefAux cs.length cs

/-- Attempt the leading group `\d{n}` (for `n ≤ 3`) followed by
`amtTailPref`. -/
def amtPrefAt (body : List Char) (n : ℕ) : Option ℕ :=
  if (body.take n).length == n && (body.take n).all Char.isDigit then
    match amtTailPref (body.drop n) with
    | some m => some (n + m)
    | none => none
  else none

/-- Prefix match of `-?\d{1,3}(?:,\d{3})*\.\d{2}` at the head of `cs`
(used by `re.findall` scanning and the look-ahead `re.search('^...')`):
returns the length of the match.  The greedy `\d{1,3}` tries three, two,
then one digit. -/
def amtPref (cs : List Char) : Option ℕ :=
  let sgn : ℕ := match cs with | '-' :: _ => 1 | _ => 0
  let body := match cs with | '-' :: r => r | _ => cs
  let res :=
    match amtPrefAt body 3 with
    | some k => some k
    | none =>
      match amtPrefAt body 2 with
      | some k => some k
      | none => amtPrefAt body 1
  res.map (· + sgn)

/-- The scan of `re.findall(r'(?:R\s*)?(-?\d{1,3}(?:,\d{3})*\.\d{2})', s)`:
left-to-right, non-overlapping; the optional `R\s*` prefix extends the
match but not the captured group.  A successful match consumes at least
one character, so continuing at `rest.drop (n - 1)` is continuing right
after the match. -/
def findallAmtAux : ℕ → List Char → List (List Char)
  | 0, _ => []
  | fuel + 1, cs =>
    match cs with
    | [] => []
    | c :: rest =>
      if c = 'R' then
        let aw := rest.dropWhile Char.isWhitespace
        match amtPref aw with
        | some n => aw.take n :: findallAmtAux fuel (aw.drop n)
        | none => findallAmtAux fuel rest
      else
        match amtPref (c :: rest) with
        | some n => (c :: rest).take n :: findallAmtAux fuel (rest.drop (n - 1))
        | none => findallAmtAux fuel rest

def findallAmt (cs : List Char) : List (List Char) := findallAmtAux cs.length cs

/-- One optional `(?:\s+(AMT))?` step of the look-ahead amount regex:
greedy `\s+` (an amount never starts with whitespace, so the maximal run
is the only candidate), then a prefix amount match. -/
def optWsAmt (cs : List Char) : Option (List Char) × List Char :=
  let w := cs.takeWhile Char.isWhitespace
  if w.isEmpty then (none, cs)
  else
    let rest := cs.drop w.length
    match amtPref rest with
    | some n => (some (rest.take n), rest.drop n)
    | none => (none, cs)

/-- The look-ahead regex
`^(AMT)(?:\s+(AMT))?(?:\s+(AMT))?` (with `AMT` the amount pattern),
anchored at the start of the stripped line. -/
def amountsMatch (cs : List Char) : Option (List Char × Option (List Char) × Option (List Char)) :=
  match amtPref cs with
  | none => none
  | some n1 =>
    let g1 := cs.take n1
    let r1 := cs.drop n1
    let s2 := optWsAmt r1
    let s3 := optWsAmt s2.2
    some (g1, s2.1, s3.1)

/-- Splits off the maximal non-whitespace suffix (the last token); `none`
when there is none or the text ends in whitespace. -/
def splitLastTok (cs : List Char) : Option (List Char × List Char) :=
  let rev := cs.reverse
  let tokR := rev.takeWhile (fun c => !c.isWhitespace)
  if tokR.isEmpty then none
  else some ((rev.drop tokR.length).reverse, tokR.reverse)

/-- Splits off the last whitespace-delimited token and requires it to be a
whole-token amount. -/
def lastAmtTok (cs : List Char) : Option (List Char × List Char) :=
  match splitLastTok (wsTrimR cs) with
  | some (p, t) => if amtTok t then some (p, t) else none
  | none => none

/-- `pattern_3amt = re.search(r'(.+?)\s+(AMT)\s+(AMT)\s+(AMT)\s*$', s)`:
because each amount group is `\s`-delimited and the last is anchored at
`\s*$`, a match exists exactly when the last three tokens are whole-token
amounts preceded by at least one character and one whitespace; the lazy
`(.+?)` group is everything before them, which the caller strips.
Returns `(group1.strip(), amount, fee, balance)`. -/
def pattern3 (cs : List Char) : Option (List Char × List Char × List Char × List Char) :=
  match lastAmtTok cs with
  | none => none
  | some (p1, t3) =>
    match lastAmtTok p1 with
    | none => none
    | some (p2, t2) =>
      match lastAmtTok p2 with
      | none => none
      | some (p3, t1) =>
        if 2 ≤ p3.length then some (wsTrim p3, t1, t2, t3) else none

/-- `pattern_2amt = re.search(r'(.+?)\s+(AMT)\s+(AMT)\s*$', s)`, analogous
to `pattern3`. -/
def pattern2 (cs : List Char) : Option (List Char × List Char × List Char) :=
  match lastAmtTok cs with
  | none => none
  | some (p1, t2) =>
    match lastAmtTok p1 with
    | none => none
    | some (p2, t1) =>
      if 2 ≤ p2.length then some (wsTrim p2, t1, t2) else none

/-- `re.match(r'^\d{2}/\d{2}/\d{4}', s)` used as the look-ahead stop
condition. -/
def dateShape (cs : List Char) : Bool :=
  match cs with
  | a :: b :: '/' :: c :: d :: '/' :: e :: f :: g :: h :: _ =>
    a.isDigit && b.isDigit && c.isDigit && d.isDigit &&
    e.isDigit && f.isDigit && g.isDigit && h.isDigit
  | _ => false

/-- Shared tail of the date-anchor matchers: the regex part `\s+(.+)`
(at least one whitespace, then a non-empty remainder, greedily captured
and then stripped by the caller's `.strip()`), combined with the
validity outcome of `strptime`. -/
def dateTail (rest : List Char) (d? : Option Date) : Option (Date × List Char) :=
  match rest with
  | w :: _ =>
    if w.isWhitespace then
      if (rest.dropWhile Char.isWhitespace).isEmpty then none
      else d?.map (fun dt => (dt, wsTrim (rest.dropWhile Char.isWhitespace)))
    else none
  | [] => none

/-- `re.match(r'^(\d{2}/\d{2}/\d{4})\s+(.+)', line)` followed by
`datetime.strptime(date_str, '%d/%m/%Y')`; returns the date and
`group(2).strip()`.  `none` covers both regex failure and the
`ValueError` of an out-of-range date, which the caller's `except` turns
into skipping the line. -/
def capDateMatch (cs : List Char) : Option (Date × List Char) :=
  match cs with
  | a :: b :: '/' :: c :: d :: '/' :: e :: f :: g :: h :: rest =>
    if a.isDigit && b.isDigit && c.isDigit && d.isDigit &&
       e.isDigit && f.isDigit && g.isDigit && h.isDigit then
      dateTail rest (mkValidDate (dv a * 10 + dv b) (dv c * 10 + dv d)
        (dv e * 1000 + dv f * 100 + dv g * 10 + dv h))
    else none
  | _ => none

/-- `re.search(r'\d+\.\d{2}', s)`: some digit directly followed by a point
and two digits. -/
def hasNumDD : List Char → Bool
  | a :: rest =>
    (match rest with
     | '.' :: b :: c :: _ => a.isDigit && b.isDigit && c.isDigit
     | _ => false) || hasNumDD rest
  | [] => false

/-- The header/noise skip condition at the top of the Capitec scan loop. -/
def capSkipLine (cs : List Char) : Bool :=
  cs.isEmpty
  || containsSub cs "Transaction History".data
  || containsSub cs "Money In".data
  || containsSub cs "Money Out".data
  || containsSub cs "Date Description Category".data
  || containsSub cs "* Includes VAT".data
  || containsSub cs "Spending Summary".data
  || containsSub cs "Fee Summary".data
  || (containsSub cs "Page ".data && containsSub cs " of ".data)

/-- The look-ahead loop `while j < len(lines) and j < i + 3` (called with
`bound = i + 3`, `j = i + 1`): stops at a date-shaped line, returns the
first line matching `amountsMatch` together with its index. -/
def capLookaheadAux (lines : List (List Char)) : ℕ → ℕ → ℕ →
    Option (ℕ × List Char × Option (List Char) × Option (List Char))
  | 0, _, _ => none
  | fuel + 1, bound, j =>
    if h : j < lines.length ∧ j < bound then
      let nl := wsTrim (lines.get ⟨j, h.1⟩)
      if dateShape nl then none
      else
        match amountsMatch nl with
        | some (g1, g2, g3) => some (j, g1, g2, g3)
        | none => capLookaheadAux lines fuel bound (j + 1)
    else none

/-- `'fee' in description.lower() or (category and 'fee' in
category.lower())`. -/
def feeWordHit (desc : List Char) (cat : Option (List Char)) : Bool :=
  containsSub (lowerStr desc) "fee".data ||
  (match cat with
   | some c => containsSub (lowerStr c) "fee".data
   | none => false)

/-- The main-transaction dictionary appended by `_parse_capitec_improved`
(`n` is `len(transactions)` at append time). -/
def capMain (n : ℕ) (td : Date) (desc : List Char) (cat : Option (List Char))
    (ta fee bal : ℚ) : Txn :=
  { date := td
    description := String.mk desc
    amount := |ta|
    typ := if is_credit_transaction desc cat then "credit" else "debit"
    reference := String.mk ("CAP-".data ++ fmtDate td ++ '-' :: pad4 n)
    category := some (cat.map String.mk)
    fee := some fee
    balance := bal }

/-- The fee-transaction dictionary appended when `fee > 0`. -/
def capFee (n : ℕ) (td : Date) (desc : List Char) (fee bal : ℚ) : Txn :=
  { date := td
    description := String.mk (desc ++ " (Fee)".data)
    amount := fee
    typ := "debit"
    reference := String.mk ("CAP-".data ++ fmtDate td ++ '-' :: (pad4 n ++ "-FEE".data))
    category := some (some "Fees")
    fee := some 0
    balance := bal }

/-- The record-emission step shared verbatim by the three-amount and
multi-line branches (and, with `fee = 0`, by the two-amount and embedded
branches, whose code differs only in omitting the then-dead fee-emission
`if`): main transaction when `abs(trans_amount) > 0`, fee transaction when
`fee > 0`. -/
def capEmit (n : ℕ) (td : Date) (desc : List Char) (cat : Option (List Char))
    (ta fee bal : ℚ) : List Txn :=
  (if |ta| > 0 then [capMain n td desc cat ta fee bal] else []) ++
  (if fee > 0 then [capFee (n + if |ta| > 0 then 1 else 0) td desc fee bal] else [])

/-- The scan loop of `_parse_capitec_improved` (`while i < len(lines)`),
with `fuel` an upper bound on the remaining iterations (`i` advances by at
least one per iteration, so `fuel = len(lines)` never runs out). -/
def capGo (lines : List (List Char)) : ℕ → ℕ → List Txn → List Txn
  | 0, _, acc => acc
  | fuel + 1, i, acc =>
    match lines.get? i with
    | none => acc
    | some raw =>
      let line := wsTrim raw
      if capSkipLine line then capGo lines fuel (i + 1) acc
      else
        match capDateMatch line with
        | none => capGo lines fuel (i + 1) acc
        | some (td, rest) =>
          if (containsSub (lowerStr rest) "insufficient funds".data ||
              containsSub (lowerStr rest) "authentication fee".data) && !hasNumDD rest then
            capGo lines fuel (i + 1) acc
          else
            match pattern3 rest with
            | some (dc, a1, a2, a3) =>
              let trans_amount := parse_amount a1
              let fee := |parse_amount a2|
              let balance := parse_amount a3
              let dcr := extract_category dc
              capGo lines fuel (i + 1)
                (acc ++ capEmit acc.length td dcr.1 dcr.2 trans_amount fee balance)
            | none =>
              match pattern2 rest with
              | some (dc, s1, s2) =>
                let amount1 := parse_amount s1
                let amount2 := parse_amount s2
                let dcr := extract_category dc
                let trans_amount := if feeWordHit dcr.1 dcr.2 then |amount1| else amount1
                capGo lines fuel (i + 1)
                  (acc ++ capEmit acc.length td dcr.1 dcr.2 trans_amount 0 amount2)
              | none =>
                match capLookaheadAux lines 2 (i + 3) (i + 1) with
                | some (j, g1, g2, g3) =>
                  let amt1 := parse_amount g1
                  let amt2 := match g2 with | some g => parse_amount g | none => 0
                  let amt3 := match g3 with | some g => parse_amount g | none => 0
                  let dcr := extract_category rest
                  let tfb : ℚ × ℚ × ℚ :=
                    if amt3 ≠ 0 then (amt1, |amt2|, amt3)
                    else if amt2 ≠ 0 then (amt1, 0, amt2)
                    else (amt1, 0, 0)
                  capGo lines fuel (j + 1)
                    (acc ++ capEmit acc.length td dcr.1 dcr.2 tfb.1 tfb.2.1 tfb.2.2)
                | none =>
                  match findallAmt rest with
                  | [] => capGo lines fuel (i + 1) acc
                  | a :: tl =>
                    let trans_amount := parse_amount a
                    let balance := match tl with
                      | [] => (0 : ℚ)
                      | _ => parse_amount ((a :: tl).getLast (by simp))
                    let clean := wsNormalize
                      ((a :: tl).foldl (fun s am => removeAll am (removeAll ('R' :: am) s)) rest)
                    let dcr := extract_category clean
                    capGo lines fuel (i + 1)
                      (acc ++ capEmit acc.length td dcr.1 dcr.2 trans_amount 0 balance)

/-- `_parse_capitec_improved(text)`. -/
def parse_capitec_improved (text : List Char) : List Txn :=
  let lines := splitNL text
  capGo lines lines.length 0 []

/-- Word character of regex `\w` (ASCII range; a non-ASCII word character
would in any case fail the month-abbreviation lookup below, giving the
same skip behaviour). -/
def wordChar (c : Char) : Bool := c.isAlphanum || c = '_'

/-- Prefix match of `^\d{1,2}\s+\w{3}\s+\d{4}` (TymeBank date shape):
returns day value, month token, year value and the text after the year.
`\d{1,2}` cannot stop inside a longer digit run (the next character must
be `\s`), so a three-digit run fails. -/
def tymeDatePre (cs : List Char) : Option (ℕ × List Char × ℕ × List Char) :=
  let ds := cs.takeWhile Char.isDigit
  if ds.isEmpty || decide (3 ≤ ds.length) then none
  else
    let afterD := cs.drop ds.length
    let w1 := afterD.takeWhile Char.isWhitespace
    if w1.isEmpty then none
    else
      match afterD.drop w1.length with
      | m1 :: m2 :: m3 :: rest2 =>
        if wordChar m1 && wordChar m2 && wordChar m3 then
          let w2 := rest2.takeWhile Char.isWhitespace
          if w2.isEmpty then none
          else
            match rest2.drop w2.length with
            | y1 :: y2 :: y3 :: y4 :: rest3 =>
              if y1.isDigit && y2.isDigit && y3.isDigit && y4.isDigit then
                some (digitsVal ds, [m1, m2, m3],
                      dv y1 * 1000 + dv y2 * 100 + dv y3 * 10 + dv y4, rest3)
              else none
            | _ => none
        else none
      | _ => none

/-- Month abbreviations as `strptime('%b')` accepts them (compared
case-insensitively, C locale). -/
def monthAbbrevs : List String :=
  ["jan", "feb", "mar", "apr", "may", "jun", "jul", "aug", "sep", "oct", "nov", "dec"]

/-- Case-insensitive `%b` month lookup; `none` models the `ValueError`. -/
def monthNum? (m : List Char) : Option ℕ :=
  (monthAbbrevs.findIdx? (fun s => s.data == lowerStr m)).map (· + 1)

/-- `re.match(r'^(\d{1,2}\s+\w{3}\s+\d{4})\s+(.+)', line)` followed by
`datetime.strptime(group(1), '%d %b %Y')`; returns the date and
`group(2).strip()`; `none` for regex failure or `ValueError`. -/
def tymeDateMatch (cs : List Char) : Option (Date × List Char) :=
  match tymeDatePre cs with
  | none => none
  | some (dd, mon, yy, rest) =>
    dateTail rest ((monthNum? mon).bind (fun mm => mkValidDate dd mm yy))

/-- The look-ahead stop condition `re.match(r'^\d{1,2}\s+\w{3}\s+\d{4}',
next_line)`. -/
def tymeDateShape (cs : List Char) : Bool := (tymeDatePre cs).isSome

/-- Optional `(?:\.\d{2})?` in whole-token position. -/
def optFracEnd (cs : List Char) : Bool := cs.isEmpty || fracEnd cs

/-- Tail of the first alternative `\d{1,3}(?:,\d{3})*` of the TymeBank
number pattern, followed by the optional fraction, in whole-token
position. -/
def tymeAlt1TailAux : ℕ → List Char → Bool
  | 0, cs => optFracEnd cs
  | fuel + 1, cs =>
    match cs with
    | ',' :: rest =>
      (rest.take 3).length == 3 && (rest.take 3).all Char.isDigit && tymeAlt1TailAux fuel (rest.drop 3)
    | _ => optFracEnd cs

def tymeAlt1Tail (cs : List Char) : Bool := tymeAlt1TailAux cs.length cs

/-- Whole-token match of
`(?:\d{1,3}(?:,\d{3})*|\d+)(?:\.\d{2})?` (the TymeBank amount token). -/
def tymeNum (cs : List Char) : Bool :=
  let ds := cs.takeWhile Char.isDigit
  (!ds.isEmpty && decide (ds.length ≤ 3) && tymeAlt1Tail (cs.drop ds.length)) ||
  (!ds.isEmpty && optFracEnd (cs.drop ds.length))

/-- The four-column TymeBank amount line
`^(-|NUM)\s+(-|NUM)\s+(-|NUM)\s+(NUM)\s*$` applied to the stripped line:
each group is whitespace-delimited, so the line must consist of exactly
four such tokens. -/
def tymeAmountMatch (cs : List Char) :
    Option (List Char × List Char × List Char × List Char) :=
  match splitWS cs with
  | [t1, t2, t3, t4] =>
    if ((t1 == ['-']) || tymeNum t1) && ((t2 == ['-']) || tymeNum t2) &&
       ((t3 == ['-']) || tymeNum t3) && tymeNum t4 then
      some (t1, t2, t3, t4)
    else none
  | _ => none

/-- The inner `parse_amount_safe` of `_parse_tymebank`: like
`parse_amount` but without explicit sign handling, and treating values
above ten million as extraction noise. -/
def parse_amount_safe (cs : List Char) : ℚ :=
  if cs.isEmpty || cs = ['-'] then 0
  else
    match pyFloat? (wsTrim (removeAll [' '] (removeAll [','] cs))) with
    | some v => if v > mkRat 10000000 1 then 0 else v
    | none => 0

/-- `re.match(r'^\d{10,}$', s)`: a full line of at least ten digits. -/
def digits10 (cs : List Char) : Bool := decide (10 ≤ cs.length) && cs.all Char.isDigit

/-- The TymeBank continuation loop `while j < len(lines) and j < i + 6`
(called with `bound = i + 6`, `j = i + 1`, `parts = [rest_of_line]`):
stops at the next date-shaped line, collects description lines, and
returns the first four-column amount line with its index. -/
def tymeCollectAux (lines : List (List Char)) : ℕ → ℕ → ℕ → List (List Char) →
    List (List Char) × Option (ℕ × List Char × List Char × List Char × List Char)
  | 0, _, _, parts => (parts, none)
  | fuel + 1, bound, j, parts =>
    if h : j < lines.length ∧ j < bound then
      let nl := wsTrim (lines.get ⟨j, h.1⟩)
      if tymeDateShape nl then (parts, none)
      else
        match tymeAmountMatch nl with
        | some (f, mo, mi, b) => (parts, some (j, f, mo, mi, b))
        | none =>
          let parts' :=
            if !nl.isEmpty && !digits10 nl then
              (if decide (0 < nl.length) && !(nl.head? == some '-') then parts ++ [nl] else parts)
            else parts
          tymeCollectAux lines fuel bound (j + 1) parts'
    else (parts, none)

/-- The reference string `f"TYME-{date:%Y%m%d}-{len(transactions)}"`. -/
def tymeRef (td : Date) (n : ℕ) : String :=
  String.mk ("TYME-".data ++ fmtDate td ++ '-' :: natChars n)

/-- The amount/direction cascade of `_parse_tymebank`, written as the
equivalent first-hit chain: the source initialises `amount = 0,
trans_type = 'debit'`, takes `money_in` when positive (credit), otherwise
`money_out` when positive, otherwise `fees` when positive (suffixing the
description); each later step is guarded by `amount == 0`, i.e. by no
earlier step having fired. -/
def tymeCascade (money_in_val money_out_val fees_val : ℚ) (description : List Char) :
    ℚ × Bool × List Char :=
  if money_in_val > 0 then (money_in_val, true, description)
  else if money_out_val > 0 then (money_out_val, false, description)
  else if fees_val > 0 then (fees_val, false, description ++ " (Fee)".data)
  else (0, false, description)

/-- The record-emission step of `_parse_tymebank` (`n` is
`len(transactions)` at append time): one record when the cascade produced
a positive amount, none otherwise. -/
def tymeEmit (n : ℕ) (td : Date) (description : List Char)
    (fees money_out money_in balanceS : List Char) : List Txn :=
  let r := tymeCascade (parse_amount_safe money_in) (parse_amount_safe money_out)
    (parse_amount_safe fees) description
  if r.1 > 0 then
    [{ date := td
       description := String.mk r.2.2
       amount := r.1
       typ := if r.2.1 then "credit" else "debit"
       reference := tymeRef td n
       category := none
       fee := none
       balance := parse_amount_safe balanceS }]
  else []

/-- The scan loop of `_parse_tymebank`, fuelled like `capGo`. -/
def tymeGo (lines : List (List Char)) : ℕ → ℕ → List Txn → List Txn
  | 0, _, acc => acc
  | fuel + 1, i, acc =>
    match lines.get? i with
    | none => acc
    | some raw =>
      let line := wsTrim raw
      match tymeDateMatch line with
      | none => tymeGo lines fuel (i + 1) acc
      | some (td, rest) =>
        match tymeCollectAux lines 5 (i + 6) (i + 1) [rest] with
        | (_, none) => tymeGo lines fuel (i + 1) acc
        | (parts, some (j, fees, money_out, money_in, balanceS)) =>
          let description := wsNormalize (List.intercalate [' '] parts)
          if description.length < 3 || containsSub description "Description".data then
            tymeGo lines fuel (j + 1) acc
          else
            tymeGo lines fuel (j + 1)
              (acc ++ tymeEmit acc.length td description fees money_out money_in balanceS)

/-- `_parse_tymebank(text)`. -/
def parse_tymebank (text : List Char) : List Txn :=
  let lines := splitNL text
  tymeGo lines lines.length 0 []

/-- Regular-expression abstract syntax for the generic parser's
`re.findall` patterns: character classes, concatenation, ordered
alternation, greedy/lazy star, capturing groups. -/
inductive RE where
  | eps : RE
  | cls : (Char → Bool) → RE
  | cat : RE → RE → RE
  | alt : RE → RE → RE
  | star : RE → Bool → RE
  | group : ℕ → RE → RE

/-- Captured groups: index paired with captured characters. -/
abbrev Caps := List (ℕ × List Char)

/-- Backtracking matcher in continuation style, following CPython `re`
semantics: `alt` tries the left branch first, greedy `star` tries the
body first, lazy `star` (second argument `true`) tries the continuation
first.  The length guard inside `star` only cuts matches of a nullable
star body (none of the patterns below has one), and the `fuel` bounds the
recursion depth.  Returns the unconsumed text and captures of the first
match in backtracking order. -/
def reM : ℕ → RE → List Char → Caps →
    (List Char → Caps → Option (List Char × Caps)) → Option (List Char × Caps)
  | 0, _, _, _, _ => none
  | _ + 1, RE.eps, s, caps, k => k s caps
  | _ + 1, RE.cls p, s, caps, k =>
    match s with
    | [] => none
    | c :: rest => if p c then k rest caps else none
  | f + 1, RE.cat r1 r2, s, caps, k =>
    reM f r1 s caps (fun s1 c1 => reM f r2 s1 c1 k)
  | f + 1, RE.alt r1 r2, s, caps, k =>
    match reM f r1 s caps k with
    | some x => some x
    | none => reM f r2 s caps k
  | f + 1, RE.star r lzy, s, caps, k =>
    if lzy then
      match k s caps with
      | some x => some x
      | none => reM f r s caps (fun s1 c1 =>
          if s1.length < s.length then reM f (RE.star r lzy) s1 c1 k else none)
    else
      match reM f r s caps (fun s1 c1 =>
          if s1.length < s.length then reM f (RE.star r lzy) s1 c1 k else none) with
      | some x => some x
      | none => k s caps
  | f + 1, RE.group i r, s, caps, k =>
    reM f r s caps (fun s1 c1 => k s1 ((i, s.take (s.length - s1.length)) :: c1))

/-- Literal-character regex. -/
def reChar (c : Char) : RE := RE.cls (· == c)

/-- Digit-class regex `\d`. -/
def reDigit : RE := RE.cls Char.isDigit

/-- Whitespace-class regex `\s`. -/
def reWS : RE := RE.cls Char.isWhitespace

/-- Concatenation of a list of regexes. -/
def reSeq : List RE → RE
  | [] => RE.eps
  | [r] => r
  | r :: rs => RE.cat r (reSeq rs)

/-- Greedy `+`. -/
def rePlus (r : RE) : RE := RE.cat r (RE.star r false)

/-- Lazy `+?`. -/
def rePlusLazy (r : RE) : RE := RE.cat r (RE.star r true)

/-- Greedy `?`. -/
def reOpt (r : RE) : RE := RE.alt r RE.eps

/-- The date group `(\d{2}/\d{2}/\d{4})` of generic patterns 1 and 2. -/
def genDateSlashRE : RE :=
  RE.group 1 (reSeq [reDigit, reDigit, reChar '/', reDigit, reDigit, reChar '/',
                     reDigit, reDigit, reDigit, reDigit])

/-- The date group `(\d{4}-\d{2}-\d{2})` of generic pattern 3. -/
def genDateISORE : RE :=
  RE.group 1 (reSeq [reDigit, reDigit, reDigit, reDigit, reChar '-', reDigit, reDigit,
                     reChar '-', reDigit, reDigit])

/-- The date group `(\d{2}\s+\w{3}\s+\d{4})` of generic pattern 4. -/
def genDateMonRE : RE :=
  RE.group 1 (reSeq [reDigit, reDigit, rePlus reWS, RE.cls wordChar, RE.cls wordChar,
                     RE.cls wordChar, rePlus reWS, reDigit, reDigit, reDigit, reDigit])

/-- The amount group `(-?R?[\d,]+\.\d{2})` of every generic pattern. -/
def genAmountRE : RE :=
  RE.group 3 (reSeq [reOpt (reChar '-'), reOpt (reChar 'R'),
                     rePlus (RE.cls (fun c => c.isDigit || c == ',')),
                     reChar '.', reDigit, reDigit])

/-- Generic pattern 1:
`(\d{2}/\d{2}/\d{4})\s*[|\|]\s*([^|\|]+?)\s*[|\|]\s*(-?R?[\d,]+\.\d{2})`
(the class `[|\|]` is just the pipe). -/
def genPat1 : RE :=
  reSeq [genDateSlashRE, RE.star reWS false, reChar '|', RE.star reWS false,
         RE.group 2 (rePlusLazy (RE.cls (· != '|'))), RE.star reWS false, reChar '|',
         RE.star reWS false, genAmountRE]

/-- Description class `[^\d\-\+\$R]` of generic patterns 2-4. -/
def genDescChar (c : Char) : Bool :=
  !(c.isDigit || c == '-' || c == '+' || c == '$' || c == 'R')

/-- Generic pattern 2:
`(\d{2}/\d{2}/\d{4})\s+([^\d\-\+\$R]+?)\s+(-?R?[\d,]+\.\d{2})`. -/
def genPat2 : RE :=
  reSeq [genDateSlashRE, rePlus reWS, RE.group 2 (rePlusLazy (RE.cls genDescChar)),
         rePlus reWS, genAmountRE]

/-- Generic pattern 3, the ISO-date variant of pattern 2. -/
def genPat3 : RE :=
  reSeq [genDateISORE, rePlus reWS, RE.group 2 (rePlusLazy (RE.cls genDescChar)),
         rePlus reWS, genAmountRE]

/-- Generic pattern 4, the `%d %b %Y`-date variant of pattern 2. -/
def genPat4 : RE :=
  reSeq [genDateMonRE, rePlus reWS, RE.group 2 (rePlusLazy (RE.cls genDescChar)),
         rePlus reWS, genAmountRE]

/-- `re.findall` scan: leftmost match at each position, non-overlapping,
continuing after each match (the `re.MULTILINE` flag of the source call
is inert: no pattern uses `^` or `$`).  `fuel` is passed through to the
matcher. -/
def reFindAllAux (fuel : ℕ) (r : RE) : ℕ → List Char → List Caps
  | 0, _ => []
  | sf + 1, s =>
    match reM fuel r s [] (fun rest caps => some (rest, caps)) with
    | some (rest, caps) =>
      if rest.length < s.length then
        caps :: reFindAllAux fuel r sf rest
      else
        match s with
        | [] => [caps]
        | _ :: t => caps :: reFindAllAux fuel r sf t
    | none =>
      match s with
      | [] => []
      | _ :: t => reFindAllAux fuel r sf t

/-- `re.findall` with a depth budget ample for the pattern sizes used. -/
def reFindAll (r : RE) (s : List Char) : List Caps :=
  reFindAllAux ((s.length + 2) * 128) r (s.length + 1) s

/-- Captured group lookup (each group of the patterns above captures once
per match). -/
def capGet (caps : Caps) (i : ℕ) : List Char :=
  ((caps.find? (fun x => x.1 == i)).map Prod.snd).getD []

/-- `strptime('%d/%m/%Y')` on a captured slash date. -/
def genDateSlash? (cs : List Char) : Option Date :=
  match cs with
  | [a, b, '/', c, d, '/', e, f, g, h] =>
    if a.isDigit && b.isDigit && c.isDigit && d.isDigit &&
       e.isDigit && f.isDigit && g.isDigit && h.isDigit then
      mkValidDate (dv a * 10 + dv b) (dv c * 10 + dv d)
        (dv e * 1000 + dv f * 100 + dv g * 10 + dv h)
    else none
  | _ => none

/-- `strptime('%Y-%m-%d')` on a captured ISO date. -/
def genDateISO? (cs : List Char) : Option Date :=
  match cs with
  | [a, b, c, d, '-', e, f, '-', g, h] =>
    if a.isDigit && b.isDigit && c.isDigit && d.isDigit &&
       e.isDigit && f.isDigit && g.isDigit && h.isDigit then
      mkValidDate (dv g * 10 + dv h) (dv e * 10 + dv f)
        (dv a * 1000 + dv b * 100 + dv c * 10 + dv d)
    else none
  | _ => none

/-- `strptime('%d %b %Y')` on a captured `dd Mon yyyy` date. -/
def genDateMon? (cs : List Char) : Option Date :=
  match tymeDatePre cs with
  | some (dd, mon, yy, []) => (monthNum? mon).bind (fun mm => mkValidDate dd mm yy)
  | _ => none

/-- The per-match body of `_parse_generic`'s inner loop: build a
transaction from a `(date, description, amount)` triple, skipping the
match on `ValueError` (date or float) or a too-short description. -/
def genStep (dateParse : List Char → Option Date) (acc : List Txn) (caps : Caps) : List Txn :=
  match dateParse (wsTrim (capGet caps 1)) with
  | none => acc
  | some dt =>
    let description := wsTrim (capGet caps 2)
    match pyFloat? (wsTrim (removeAll [','] (removeAll ['$'] (removeAll ['R'] (capGet caps 3))))) with
    | none => acc
    | some amount =>
      if description.length < 3 then acc
      else
        acc ++ [{ date := dt
                  description := String.mk description
                  amount := |amount|
                  typ := if amount < 0 then "debit" else "credit"
                  reference := String.mk ("GEN-".data ++ fmtDate dt ++ '-' :: natChars acc.length)
                  category := none
                  fee := none
                  balance := 0 }]

/-- The inner `for match in matches` loop of `_parse_generic`. -/
def genProcess (dateParse : List Char → Option Date) (ms : List Caps) : List Txn :=
  ms.foldl (genStep dateParse) []

/-- `_parse_generic(text)`: the four patterns are tried in order and the
loop breaks as soon as one of them has produced at least one
transaction. -/
def parse_generic (text : List Char) : List Txn :=
  let t1 := genProcess genDateSlash? (reFindAll genPat1 text)
  if !t1.isEmpty then t1
  else
    let t2 := genProcess genDateSlash? (reFindAll genPat2 text)
    if !t2.isEmpty then t2
    else
      let t3 := genProcess genDateISO? (reFindAll genPat3 text)
      if !t3.isEmpty then t3
      else genProcess genDateMon? (reFindAll genPat4 text)

/-- The sort key of `_sort_by_balance`:
`(-date.toordinal(), float(balance))`, compared lexicographically.
`dateNum` preserves the order and equality of `toordinal` (its only used
properties), and every parser stores a non-`None` numeric `balance`, so
the `get`/`None` fallbacks of the source collapse to the field itself. -/
def txnKey (t : Txn) : ℤ ×ₗ ℚ := toLex (-(dateNum t.date : ℤ), t.balance)

/-- The sorting relation of `_sort_by_balance`. -/
def txnLE (a b : Txn) : Prop := txnKey a ≤ txnKey b

instance : DecidableRel txnLE := fun a b => by
  unfold txnLE; infer_instance

/-- `_sort_by_balance(transactions)`: CPython `sorted` is a stable sort
by `txnKey`; a stable sort is determined extensionally by the key order,
and `List.insertionSort` with the total preorder `txnLE` is stable, so it
computes the same list. -/
def sort_by_balance (ts : List Txn) : List Txn := ts.insertionSort txnLE

/-- `parse_pdf(pdf_data, bank_name)` from text extraction onwards: `text`
is the already-extracted statement text (extraction is the external
collaborator), dispatched by bank identifier and sorted as the final
step. -/
def parse_pdf (text : List Char) (bank_name : String) : List Txn :=
  let transactions :=
    if bank_name = "tymebank" then parse_tymebank text
    else if bank_name = "capitec" then parse_capitec_improved text
    else parse_generic text
  sort_by_balance transactions

lemma digitChar_isDigit (n : ℕ) (h : n < 10) : (digitChar n).isDigit = true := by
  interval_cases n <;> decide

lemma digitChar_toNat (n : ℕ) (h : n < 10) : (digitChar n).toNat = 48 + n := by
  interval_cases n <;> decide

lemma natChars_all_digit (n : ℕ) : ∀ c ∈ natChars n, c.isDigit = true := by
  induction n using Nat.strong_induction_on with
  | _ n ih =>
    rw [natChars_eq]
    split
    · intro c hc
      simp only [List.mem_singleton] at hc
      subst hc
      exact digitChar_isDigit n (by omega)
    · intro c hc
      rw [List.mem_append] at hc
      rcases hc with h1 | h2
      · exact ih (n / 10) (Nat.div_lt_self (by omega) (by omega)) c h1
      · simp only [List.mem_singleton] at h2
        subst h2
        exact digitChar_isDigit _ (Nat.mod_lt _ (by omega))

lemma digitsVal_append_single (l : List Char) (c : Char) :
    digitsVal (l ++ [c]) = 10 * digitsVal l + (c.toNat - 48) := by
  simp [digitsVal, List.foldl_append]

lemma digitsVal_natChars (n : ℕ) : digitsVal (natChars n) = n := by
  induction n using Nat.strong_induction_on with
  | _ n ih =>
    rw [natChars_eq]
    split
    · simp [digitsVal, digitChar_toNat n (by omega)]
    · rw [digitsVal_append_single, ih (n / 10) (Nat.div_lt_self (by omega) (by omega)),
        digitChar_toNat _ (Nat.mod_lt _ (by omega))]
      omega

lemma natChars_inj (a b : ℕ) (h : natChars a = natChars b) : a = b := by
  have := digitsVal_natChars a
  rw [h, digitsVal_natChars] at this
  omega

lemma digitsVal_replicate_zero (k : ℕ) (l : List Char) :
    digitsVal (List.replicate k '0' ++ l) = digitsVal l := by
  induction k with
  | zero => rfl
  | succ k ih =>
    have : List.replicate (k + 1) '0' ++ l = '0' :: (List.replicate k '0' ++ l) := by
      simp [List.replicate_succ]
    rw [this]
    show (List.replicate k '0' ++ l).foldl (fun a c => 10 * a + (c.toNat - 48)) (10 * 0 + ('0'.toNat - 48)) = digitsVal l
    simpa [digitsVal] using ih

lemma digitsVal_pad4 (n : ℕ) : digitsVal (pad4 n) = n := by
  rw [pad4, digitsVal_replicate_zero, digitsVal_natChars]

lemma pad4_inj (a b : ℕ) (h : pad4 a = pad4 b) : a = b := by
  have := digitsVal_pad4 a
  rw [h, digitsVal_pad4] at this
  omega

lemma pad4_all_digit (n : ℕ) : ∀ c ∈ pad4 n, c.isDigit = true := by
  intro c hc
  rw [pad4, List.mem_append] at hc
  rcases hc with h | h
  · rw [List.eq_of_mem_replicate h]; decide
  · exact natChars_all_digit n c h

lemma pad2_all_digit (n : ℕ) : ∀ c ∈ pad2 n, c.isDigit = true := by
  intro c hc
  rw [pad2, List.mem_append] at hc
  rcases hc with h | h
  · rw [List.eq_of_mem_replicate h]; decide
  · exact natChars_all_digit n c h

lemma natChars_length_le (k : ℕ) : ∀ n, 1 ≤ k → n < 10 ^ k → (natChars n).length ≤ k := by
  induction k with
  | zero => omega
  | succ k ih =>
    intro n _ hn
    rw [natChars_eq]
    split
    · simp
    · rename_i h10
      have hk1 : 1 ≤ k := by
        by_contra hk
        have : k = 0 := by omega
        subst this
        simp at hn
        omega
      have hdiv : n / 10 < 10 ^ k := by
        apply Nat.div_lt_of_lt_mul
        have : 10 ^ (k + 1) = 10 * 10 ^ k := by ring
        omega
      have := ih (n / 10) hk1 hdiv
      simp only [List.length_append, List.length_singleton]
      omega

lemma pad4_length (n : ℕ) (h : n ≤ 9999) : (pad4 n).length = 4 := by
  have := natChars_length_le 4 n (by omega) (by omega)
  have h1 : 1 ≤ (natChars n).length := by
    rw [natChars_eq]
    split
    · simp
    · simp only [List.length_append, List.length_singleton]; omega
  simp only [pad4, List.length_append, List.length_replicate]
  omega

lemma pad2_length (n : ℕ) (h : n ≤ 99) : (pad2 n).length = 2 := by
  have := natChars_length_le 2 n (by omega) (by omega)
  have h1 : 1 ≤ (natChars n).length := by
    rw [natChars_eq]
    split
    · simp
    · simp only [List.length_append, List.length_singleton]; omega
  simp only [pad2, List.length_append, List.length_replicate]
  omega

lemma daysInMonth_le (y m : ℕ) : daysInMonth y m ≤ 31 := by
  unfold daysInMonth
  split
  · split <;> omega
  · split <;> omega

lemma fmtDate_length (d : Date) (hv : validDate d) : (fmtDate d).length = 8 := by
  obtain ⟨h1, h2, h3, h4, h5, h6⟩ := hv
  have hd31 := daysInMonth_le d.year d.month
  simp only [fmtDate, List.length_append]
  rw [pad4_length _ (by omega), pad2_length _ (by omega), pad2_length _ (by omega)]

lemma fmtDate_all_digit (d : Date) : ∀ c ∈ fmtDate d, c.isDigit = true := by
  intro c hc
  simp only [fmtDate, List.mem_append] at hc
  rcases hc with (h | h) | h
  · exact pad4_all_digit _ c h
  · exact pad2_all_digit _ c h
  · exact pad2_all_digit _ c h

/-- Shape of a reference string: fixed parser tag, eight date digits, a
dash, the decimal rendering of the emission counter, and an optional
`-FEE` marker. -/
def RefSpec (pre : List Char) (numRep : ℕ → List Char) (t : Txn) (k : ℕ) : Prop :=
  ∃ ds suf, t.reference.data = pre ++ ds ++ '-' :: (numRep k ++ suf)
    ∧ ds.length = 8 ∧ (∀ c ∈ ds, c.isDigit = true)
    ∧ (suf = [] ∨ suf = "-FEE".data)

lemma takeWhile_digit_append (a s : List Char) (ha : ∀ c ∈ a, c.isDigit = true)
    (hs : s = [] ∨ ∃ t, s = '-' :: t) :
    (a ++ s).takeWhile Char.isDigit = a := by
  induction a with
  | nil =>
    rcases hs with rfl | ⟨t, rfl⟩
    · rfl
    · simp [List.takeWhile_cons]
  | cons c a ih =>
    have hc : c.isDigit = true := ha c (by simp)
    simp only [List.cons_append, List.takeWhile_cons, hc, if_true]
    rw [ih (fun x hx => ha x (by simp [hx]))]

lemma refSpec_inj (pre : List Char) (numRep : ℕ → List Char)
    (hd : ∀ k, ∀ c ∈ numRep k, c.isDigit = true)
    (hi : ∀ a b, numRep a = numRep b → a = b)
    (t1 t2 : Txn) (k1 k2 : ℕ)
    (h1 : RefSpec pre numRep t1 k1) (h2 : RefSpec pre numRep t2 k2)
    (heq : t1.reference = t2.reference) : k1 = k2 := by
  obtain ⟨ds1, suf1, e1, l1, d1, s1⟩ := h1
  obtain ⟨ds2, suf2, e2, l2, d2, s2⟩ := h2
  have e : pre ++ (ds1 ++ '-' :: (numRep k1 ++ suf1)) = pre ++ (ds2 ++ '-' :: (numRep k2 ++ suf2)) := by
    have := congrArg String.data heq
    rw [e1, e2] at this
    simpa [List.append_assoc] using this
  have e' := List.append_cancel_left e
  have hds := List.append_inj e' (l1.trans l2.symm)
  have etail : '-' :: (numRep k1 ++ suf1) = '-' :: (numRep k2 ++ suf2) := hds.2
  have enum : numRep k1 ++ suf1 = numRep k2 ++ suf2 := by
    injection etail
  have hsuf : ∀ suf : List Char, suf = [] ∨ suf = "-FEE".data → suf = [] ∨ ∃ t, suf = '-' :: t := by
    intro suf h
    rcases h with rfl | rfl
    · exact Or.inl rfl
    · exact Or.inr ⟨"FEE".data, rfl⟩
  have t1' := takeWhile_digit_append (numRep k1) suf1 (hd k1) (hsuf _ s1)
  have t2' := takeWhile_digit_append (numRep k2) suf2 (hd k2) (hsuf _ s2)
  apply hi
  rw [← t1', ← t2', enum]

/-- Positional invariant: `P t k` holds for the element `t` at every
index `k` of the list. -/
def SpecAll (P : Txn → ℕ → Prop) (l : List Txn) : Prop :=
  ∀ k t, l.get? k = some t → P t k

lemma nodup_of_refSpec (pre : List Char) (numRep : ℕ → List Char)
    (hd : ∀ k, ∀ c ∈ numRep k, c.isDigit = true)
    (hi : ∀ a b, numRep a = numRep b → a = b)
    (l : List Txn)
    (hs : SpecAll (RefSpec pre numRep) l) :
    (l.map (fun t => t.reference)).Nodup := by
  rw [List.nodup_iff_injective_get]
  intro i j hEq
  simp only [List.get_eq_getElem, List.getElem_map] at hEq
  have hil : i.1 < l.length := by simpa using i.2
  have hjl : j.1 < l.length := by simpa using j.2
  have h1 := hs i.1 _ (List.get?_eq_get hil)
  have h2 := hs j.1 _ (List.get?_eq_get hjl)
  simp only [List.get_eq_getElem] at h1 h2
  have : i.1 = j.1 := refSpec_inj pre numRep hd hi _ _ _ _ h1 h2 hEq
  exact Fin.ext this

lemma spec_append {P : Txn → ℕ → Prop} (acc new : List Txn)
    (h1 : SpecAll P acc)
    (h2 : ∀ k t, new.get? k = some t → P t (acc.length + k)) :
    SpecAll P (acc ++ new) := by
  intro k t hk
  rcases lt_or_ge k acc.length with hlt | hge
  · rw [List.get?_append hlt] at hk
    exact h1 k t hk
  · have hx : (acc ++ new).get? k = new.get? (k - acc.length) :=
      List.get?_append_right hge
    rw [hx] at hk
    have := h2 (k - acc.length) t hk
    have heq : acc.length + (k - acc.length) = k := by omega
    rwa [heq] at this

lemma mkValidDate_valid (dd mm yy : ℕ) (d : Date) (h : mkValidDate dd mm yy = some d) :
    validDate d := by
  unfold mkValidDate at h
  split at h
  · rename_i hc
    injection h with h'
    subst h'
    exact hc
  · exact absurd h (by simp)

lemma dateTail_valid (rest : List Char) (d? : Option Date) (td : Date) (r : List Char)
    (hall : ∀ d, d? = some d → validDate d)
    (h : dateTail rest d? = some (td, r)) : validDate td := by
  unfold dateTail at h
  split at h
  · split at h
    · split at h
      · exact absurd h (by simp)
      · simp only [Option.map_eq_some'] at h
        obtain ⟨dt, hdt, heq⟩ := h
        simp only [Prod.mk.injEq] at heq
        obtain ⟨h1, _⟩ := heq
        subst h1
        exact hall _ hdt
    · exact absurd h (by simp)
  · exact absurd h (by simp)

lemma capDateMatch_valid (cs : List Char) (td : Date) (rest : List Char)
    (h : capDateMatch cs = some (td, rest)) : validDate td := by
  unfold capDateMatch at h
  split at h
  · split at h
    · exact dateTail_valid _ _ _ _ (fun d hd => mkValidDate_valid _ _ _ _ hd) h
    · exact absurd h (by simp)
  · exact absurd h (by simp)

lemma tymeDateMatch_valid (cs : List Char) (td : Date) (rest : List Char)
    (h : tymeDateMatch cs = some (td, rest)) : validDate td := by
  unfold tymeDateMatch at h
  split at h
  · exact absurd h (by simp)
  · apply dateTail_valid _ _ _ _ _ h
    intro d hd
    simp only [Option.bind_eq_some] at hd
    obtain ⟨mm, _, hmk⟩ := hd
    exact mkValidDate_valid _ _ _ _ hmk

/-- Per-record invariant of the Capitec parser: strictly positive amount,
valid date, `category`/`fee` keys present, reference of the `CAP` shape
with the record's own emission index. -/
def CapSpec (t : Txn) (k : ℕ) : Prop :=
  0 < t.amount ∧ validDate t.date ∧ (∃ c, t.category = some c) ∧ (∃ q, t.fee = some q) ∧
  RefSpec "CAP-".data pad4 t k

lemma capMain_spec (n : ℕ) (td : Date) (desc : List Char) (cat : Option (List Char))
    (ta fee bal : ℚ) (hv : validDate td) (ht : 0 < |ta|) :
    CapSpec (capMain n td desc cat ta fee bal) n := by
  refine ⟨ht, hv, ⟨_, rfl⟩, ⟨_, rfl⟩, fmtDate td, [], ?_,
    fmtDate_length td hv, fmtDate_all_digit td, Or.inl rfl⟩
  simp [capMain, List.append_assoc]

lemma capFee_spec (n : ℕ) (td : Date) (desc : List Char) (fee bal : ℚ)
    (hv : validDate td) (hf : 0 < fee) :
    CapSpec (capFee n td desc fee bal) n := by
  refine ⟨hf, hv, ⟨_, rfl⟩, ⟨_, rfl⟩, fmtDate td, "-FEE".data, ?_,
    fmtDate_length td hv, fmtDate_all_digit td, Or.inr rfl⟩
  simp [capFee, List.append_assoc]

lemma capEmit_spec (n : ℕ) (td : Date) (desc : List Char) (cat : Option (List Char))
    (ta fee bal : ℚ) (hv : validDate td) :
    ∀ k t, (capEmit n td desc cat ta fee bal).get? k = some t → CapSpec t (n + k) := by
  intro k t hk
  unfold capEmit at hk
  by_cases hta : |ta| > 0 <;> by_cases hfee : fee > 0
  · rw [if_pos hta, if_pos hfee, if_pos hta] at hk
    cases k with
    | zero =>
      injection hk with hk
      subst hk
      simpa using capMain_spec n td desc cat ta fee bal hv hta
    | succ k' =>
      cases k' with
      | zero =>
        injection hk with hk
        subst hk
        exact capFee_spec (n + 1) td desc fee bal hv hfee
      | succ k'' => simp at hk
  · rw [if_pos hta, if_neg hfee] at hk
    cases k with
    | zero =>
      injection hk with hk
      subst hk
      simpa using capMain_spec n td desc cat ta fee bal hv hta
    | succ k' => simp at hk
  · rw [if_neg hta, if_pos hfee, if_neg hta] at hk
    cases k with
    | zero =>
      injection hk with hk
      subst hk
      simpa using capFee_spec (n + 0) td desc fee bal hv hfee
    | succ k' => simp at hk
  · rw [if_neg hta, if_neg hfee] at hk
    simp at hk

lemma capGo_spec (lines : List (List Char)) :
    ∀ fuel i acc, SpecAll CapSpec acc → SpecAll CapSpec (capGo lines fuel i acc) := by
  intro fuel
  induction fuel with
  | zero =>
    intro i acc hacc
    simpa [capGo] using hacc
  | succ f ih =>
    intro i acc hacc
    simp only [capGo]
    split
    · exact hacc
    · split
      · exact ih _ _ hacc
      · split
        · exact ih _ _ hacc
        · rename_i td rest hdm
          have hv : validDate td := capDateMatch_valid _ _ _ hdm
          split
          · exact ih _ _ hacc
          · split
            · exact ih _ _ (spec_append _ _ hacc (capEmit_spec _ _ _ _ _ _ _ hv))
            · split
              · exact ih _ _ (spec_append _ _ hacc (capEmit_spec _ _ _ _ _ _ _ hv))
              · split
                · exact ih _ _ (spec_append _ _ hacc (capEmit_spec _ _ _ _ _ _ _ hv))
                · split
                  · exact ih _ _ hacc
                  · exact ih _ _ (spec_append _ _ hacc (capEmit_spec _ _ _ _ _ _ _ hv))

lemma parse_capitec_spec (text : List Char) :
    SpecAll CapSpec (parse_capitec_improved text) := by
  unfold parse_capitec_improved
  exact capGo_spec _ _ _ _ (by intro k t hk; simp at hk)

/-- Per-record invariant of the TymeBank parser: strictly positive
amount, valid date, no `category`/`fee` keys, `TYME` reference shape. -/
def TymeSpec (t : Txn) (k : ℕ) : Prop :=
  0 < t.amount ∧ validDate t.date ∧ t.category = none ∧ t.fee = none ∧
  RefSpec "TYME-".data natChars t k

lemma tymeEmit_spec (n : ℕ) (td : Date) (description : List Char)
    (fees money_out money_in balanceS : List Char) (hv : validDate td) :
    ∀ k t, (tymeEmit n td description fees money_out money_in balanceS).get? k = some t →
      TymeSpec t (n + k) := by
  intro k t hk
  simp only [tymeEmit] at hk
  split at hk
  · rename_i ha3
    cases k with
    | zero =>
      injection hk with hk
      subst hk
      refine ⟨ha3, hv, rfl, rfl, fmtDate td, [], ?_,
        fmtDate_length td hv, fmtDate_all_digit td, Or.inl rfl⟩
      simp [tymeRef, List.append_assoc]
    | succ k' => simp at hk
  · simp at hk

lemma tymeGo_spec (lines : List (List Char)) :
    ∀ fuel i acc, SpecAll TymeSpec acc → SpecAll TymeSpec (tymeGo lines fuel i acc) := by
  intro fuel
  induction fuel with
  | zero =>
    intro i acc hacc
    simpa [tymeGo] using hacc
  | succ f ih =>
    intro i acc hacc
    simp only [tymeGo]
    split
    · exact hacc
    · split
      · exact ih _ _ hacc
      · rename_i td rest hdm
        have hv : validDate td := tymeDateMatch_valid _ _ _ hdm
        split
        · exact ih _ _ hacc
        · split
          · exact ih _ _ hacc
          · exact ih _ _ (spec_append _ _ hacc (tymeEmit_spec _ _ _ _ _ _ _ hv))

lemma parse_tymebank_spec (text : List Char) :
    SpecAll TymeSpec (parse_tymebank text) := by
  unfold parse_tymebank
  exact tymeGo_spec _ _ _ _ (by intro k t hk; simp at hk)

/-- Per-record invariant of the generic parser: valid date, no
`category`/`fee` keys, `GEN` reference shape (the amount need not be
positive: the generic path keeps zero-amount matches). -/
def GenSpec (t : Txn) (k : ℕ) : Prop :=
  validDate t.date ∧ t.category = none ∧ t.fee = none ∧
  RefSpec "GEN-".data natChars t k

lemma genStep_spec (dp : List Char → Option Date)
    (hdp : ∀ cs d, dp cs = some d → validDate d)
    (acc : List Txn) (caps : Caps) (hacc : SpecAll GenSpec acc) :
    SpecAll GenSpec (genStep dp acc caps) := by
  simp only [genStep]
  split
  · exact hacc
  · rename_i dt hdt
    have hv : validDate dt := hdp _ _ hdt
    split
    · exact hacc
    · split
      · exact hacc
      · apply spec_append _ _ hacc
        intro k t hk
        cases k with
        | zero =>
          injection hk with hk
          subst hk
          refine ⟨hv, rfl, rfl, fmtDate dt, [], ?_,
            fmtDate_length dt hv, fmtDate_all_digit dt, Or.inl rfl⟩
          simp [List.append_assoc]
        | succ k' => simp at hk

lemma genProcess_spec (dp : List Char → Option Date)
    (hdp : ∀ cs d, dp cs = some d → validDate d)
    (ms : List Caps) : SpecAll GenSpec (genProcess dp ms) := by
  unfold genProcess
  suffices h : ∀ (ms : List Caps) (acc : List Txn), SpecAll GenSpec acc → SpecAll GenSpec (ms.foldl (genStep dp) acc) by
    exact h ms [] (by intro k t hk; simp at hk)
  intro ms
  induction ms with
  | nil => intro acc hacc; exact hacc
  | cons c cs ih =>
    intro acc hacc
    exact ih _ (genStep_spec dp hdp acc c hacc)

lemma genDateSlash_valid (cs : List Char) (d : Date) (h : genDateSlash? cs = some d) :
    validDate d := by
  unfold genDateSlash? at h
  repeat' split at h
  all_goals first
    | exact absurd h (by simp)
    | exact mkValidDate_valid _ _ _ _ h

lemma genDateISO_valid (cs : List Char) (d : Date) (h : genDateISO? cs = some d) :
    validDate d := by
  unfold genDateISO? at h
  repeat' split at h
  all_goals first
    | exact absurd h (by simp)
    | exact mkValidDate_valid _ _ _ _ h

lemma genDateMon_valid (cs : List Char) (d : Date) (h : genDateMon? cs = some d) :
    validDate d := by
  unfold genDateMon? at h
  repeat' split at h
  all_goals first
    | exact absurd h (by simp)
    | (simp only [Option.bind_eq_some] at h
       obtain ⟨mm, _, hmk⟩ := h
       exact mkValidDate_valid _ _ _ _ hmk)

lemma parse_generic_spec (text : List Char) :
    SpecAll GenSpec (parse_generic text) := by
  simp only [parse_generic]
  split
  · exact genProcess_spec _ genDateSlash_valid _
  · split
    · exact genProcess_spec _ genDateSlash_valid _
    · split
      · exact genProcess_spec _ genDateISO_valid _
      · exact genProcess_spec _ genDateMon_valid _

instance : IsTotal Txn txnLE := ⟨fun a b => le_total (txnKey a) (txnKey b)⟩

instance : IsTrans Txn txnLE := ⟨fun _ _ _ h1 h2 => le_trans h1 h2⟩

lemma sort_perm (l : List Txn) : List.Perm (sort_by_balance l) l :=
  List.perm_insertionSort txnLE l

lemma sorted_refs_nodup (l : List Txn) (pre : List Char) (numRep : ℕ → List Char)
    (hd : ∀ k, ∀ c ∈ numRep k, c.isDigit = true)
    (hi : ∀ a b, numRep a = numRep b → a = b)
    (hs : SpecAll (RefSpec pre numRep) l) :
    ((sort_by_balance l).map (fun t => t.reference)).Nodup :=
  ((sort_perm l).map _).nodup_iff.mpr (nodup_of_refSpec pre numRep hd hi l hs)

lemma specAll_mem {P : Txn → ℕ → Prop} (l : List Txn) (h : SpecAll P l) :
    ∀ t ∈ l, ∃ k, P t k := by
  intro t ht
  obtain ⟨i, hi⟩ := List.mem_iff_get.mp ht
  refine ⟨i.1, h i.1 t ?_⟩
  rw [List.get?_eq_get i.2]
  exact congrArg some hi

/-- Calendar order on dates (year, then month, then day). -/
def dateLE (a b : Date) : Prop :=
  a.year < b.year ∨ (a.year = b.year ∧
    (a.month < b.month ∨ (a.month = b.month ∧ a.day ≤ b.day)))

lemma dateNum_le_iff (a b : Date) (ha : validDate a) (hb : validDate b) :
    dateNum a ≤ dateNum b ↔ dateLE a b := by
  obtain ⟨_, _, _, ham, _, had⟩ := ha
  obtain ⟨_, _, _, hbm, _, hbd⟩ := hb
  have h1 := daysInMonth_le a.year a.month
  have h2 := daysInMonth_le b.year b.month
  unfold dateNum dateLE
  omega

lemma parse_pdf_valid (text : List Char) (bank : String) :
    ∀ t ∈ parse_pdf text bank, validDate t.date := by
  intro t ht
  simp only [parse_pdf, sort_by_balance, List.mem_insertionSort] at ht
  split at ht
  · obtain ⟨k, hk⟩ := specAll_mem _ (parse_tymebank_spec text) t ht
    exact hk.2.1
  · split at ht
    · obtain ⟨k, hk⟩ := specAll_mem _ (parse_capitec_spec text) t ht
      exact hk.2.1
    · obtain ⟨k, hk⟩ := specAll_mem _ (parse_generic_spec text) t ht
      exact hk.1

/-- C1: the transaction list returned by `parse_pdf` is ordered most
recent date first, and records sharing a date are ordered by balance,
lowest first (the configured monotonic direction); the sort is the final
step of `parse_pdf` (its body is literally `sort_by_balance` applied to
the dispatched parser's output), so nothing after the reconciler reorders
records. -/
theorem parse_pdf_balance_chronological (text : List Char) (bank : String) :
    (parse_pdf text bank).Pairwise
      (fun a b => dateLE b.date a.date ∧ (a.date = b.date → a.balance ≤ b.balance)) := by
  have hsorted : (parse_pdf text bank).Pairwise txnLE := by
    simp only [parse_pdf, sort_by_balance]
    exact List.sorted_insertionSort txnLE _
  have hvalid := parse_pdf_valid text bank
  refine hsorted.imp_of_mem ?_
  intro a b ha hb hle
  have hva := hvalid a ha
  have hvb := hvalid b hb
  unfold txnLE txnKey at hle
  rw [Prod.Lex.le_iff] at hle
  constructor
  · apply (dateNum_le_iff _ _ hvb hva).mp
    rcases hle with h | ⟨h, _⟩
    · simp only [neg_lt_neg_iff, Nat.cast_lt] at h
      omega
    · simp only [neg_inj, Nat.cast_inj] at h
      omega
  · intro hdd
    rcases hle with h | ⟨_, h2⟩
    · exfalso
      rw [hdd] at h
      simp at h
    · exact h2

/-- C3: parsing is deterministic and stateless — the embedding of
`parse_pdf` is a pure function of the extracted text and the bank
identifier (it reads no state besides its arguments), so two invocations
on the same input are identical. -/
theorem parse_pdf_deterministic (text : List Char) (bank : String) :
    parse_pdf text bank = parse_pdf text bank := rfl

/-- C10: within one parse call the references of all emitted records are
pairwise distinct: each reference embeds the emission counter (the number
of records already emitted at append time), which differs between any two
records, and fee records additionally carry the `-FEE` suffix. -/
theorem parse_pdf_references_distinct (text : List Char) (bank : String) :
    ((parse_pdf text bank).map (fun t => t.reference)).Nodup := by
  simp only [parse_pdf]
  split
  · exact sorted_refs_nodup _ _ _ natChars_all_digit natChars_inj
      (fun k t hk => (parse_tymebank_spec text k t hk).2.2.2.2)
  · split
    · exact sorted_refs_nodup _ _ _ pad4_all_digit pad4_inj
        (fun k t hk => (parse_capitec_spec text k t hk).2.2.2.2)
    · exact sorted_refs_nodup _ _ _ natChars_all_digit natChars_inj
        (fun k t hk => (parse_generic_spec text k t hk).2.2.2)

/-- C6: the credit/debit classifier is total and deterministic with the
claimed precedence: the verdict is always one of credit (`true`) or debit
(`false`); description credit keywords are tested first, then description
debit keywords, then category credit and debit keywords, and with no rule
firing the result is debit. -/
theorem classifier_total_cascade (d : List Char) (c : Option (List Char)) :
    (is_credit_transaction d c = true ∨ is_credit_transaction d c = false) ∧
    (credit_keywords.any (fun kw => containsSub (lowerStr d) kw.data) = true →
      is_credit_transaction d c = true) ∧
    (credit_keywords.any (fun kw => containsSub (lowerStr d) kw.data) = false →
      debit_keywords.any (fun kw => containsSub (lowerStr d) kw.data) = true →
      is_credit_transaction d c = false) ∧
    (credit_keywords.any (fun kw => containsSub (lowerStr d) kw.data) = false →
      debit_keywords.any (fun kw => containsSub (lowerStr d) kw.data) = false →
      (["income", "interest", "received"]).any
        (fun w => containsSub (lowerStr (c.getD [])) w.data) = true →
      is_credit_transaction d c = true) ∧
    (credit_keywords.any (fun kw => containsSub (lowerStr d) kw.data) = false →
      debit_keywords.any (fun kw => containsSub (lowerStr d) kw.data) = false →
      (["income", "interest", "received"]).any
        (fun w => containsSub (lowerStr (c.getD [])) w.data) = false →
      (["withdrawal", "fees", "payments", "purchase"]).any
        (fun w => containsSub (lowerStr (c.getD [])) w.data) = true →
      is_credit_transaction d c = false) ∧
    (credit_keywords.any (fun kw => containsSub (lowerStr d) kw.data) = false →
      debit_keywords.any (fun kw => containsSub (lowerStr d) kw.data) = false →
      (["income", "interest", "received"]).any
        (fun w => containsSub (lowerStr (c.getD [])) w.data) = false →
      (["withdrawal", "fees", "payments", "purchase"]).any
        (fun w => containsSub (lowerStr (c.getD [])) w.data) = false →
      is_credit_transaction d c = false) := by
  refine ⟨?_, ?_, ?_, ?_, ?_, ?_⟩
  · cases is_credit_transaction d c
    · exact Or.inr rfl
    · exact Or.inl rfl
  all_goals unfold is_credit_transaction
  all_goals intros
  all_goals simp_all

/-- Witness for C6: the cascade applied to a concrete credit-keyword
description and to the empty description (fallback debit). -/
theorem classifier_total_cascade_witness :
    is_credit_transaction "Payment Received: Invoice 44".data none = true ∧
    is_credit_transaction [] none = false :=
  ⟨(classifier_total_cascade "Payment Received: Invoice 44".data none).2.1 (by decide),
   (classifier_total_cascade [] none).2.2.2.2.2
     (by decide) (by decide) (by decide) (by decide)⟩

/-- C8 counterexample: the category extractor is not idempotent — on
`"Transfer Fees"` it strips `"Fees"` leaving `"Transfer"`, and re-running
it on that output strips again (`"Transfer"` is itself a vocabulary
label), instead of returning it unchanged with no category. -/
theorem extract_category_not_idempotent :
    extract_category (extract_category "Transfer Fees".data).1 ≠
      ((extract_category "Transfer Fees".data).1, none) := by decide

/-- C8 amended: re-running the category extractor on the description
component of its own result is a no-op provided that description does not
itself end with another vocabulary label (labels can stack, as in
`"Transfer Fees"`). -/
theorem extract_category_conditionally_idempotent (s d : List Char) (c : Option (List Char))
    (h : extract_category s = (d, c))
    (hns : ∀ cat ∈ categories, ¬ cat.data.isSuffixOf d = true) :
    extract_category d = (d, none) := by
  unfold extract_category
  have hnone : categories.find? (fun cat => cat.data.isSuffixOf d) = none :=
    List.find?_eq_none.mpr (fun x hx => by simpa using hns x hx)
  rw [hnone]

/-- Witness for the amended C8 at a concrete extraction. -/
theorem extract_category_conditionally_idempotent_witness :
    extract_category "Hello".data = ("Hello".data, none) :=
  extract_category_conditionally_idempotent "Hello Groceries".data "Hello".data
    (some "Groceries".data) (by decide) (by decide)

set_option maxRecDepth 100000

lemma parse_pdf_capitec_eq (text : List Char) :
    parse_pdf text "capitec" = sort_by_balance (parse_capitec_improved text) := by
  simp [parse_pdf]

lemma parse_pdf_tymebank_eq (text : List Char) :
    parse_pdf text "tymebank" = sort_by_balance (parse_tymebank text) := by
  simp [parse_pdf]

lemma parse_pdf_generic_eq (text : List Char) (bank : String)
    (h1 : bank ≠ "tymebank") (h2 : bank ≠ "capitec") :
    parse_pdf text bank = sort_by_balance (parse_generic text) := by
  simp [parse_pdf, h1, h2]

lemma mem_parse_pdf_capitec (text : List Char) (t : Txn)
    (ht : t ∈ parse_pdf text "capitec") : ∃ k, CapSpec t k := by
  rw [parse_pdf_capitec_eq] at ht
  rw [sort_by_balance, List.mem_insertionSort] at ht
  exact specAll_mem _ (parse_capitec_spec text) t ht

lemma mem_parse_pdf_tymebank (text : List Char) (t : Txn)
    (ht : t ∈ parse_pdf text "tymebank") : ∃ k, TymeSpec t k := by
  rw [parse_pdf_tymebank_eq] at ht
  rw [sort_by_balance, List.mem_insertionSort] at ht
  exact specAll_mem _ (parse_tymebank_spec text) t ht

lemma mem_parse_pdf_generic (text : List Char) (bank : String) (t : Txn)
    (h1 : bank ≠ "tymebank") (h2 : bank ≠ "capitec")
    (ht : t ∈ parse_pdf text bank) : ∃ k, GenSpec t k := by
  rw [parse_pdf_generic_eq text bank h1 h2] at ht
  rw [sort_by_balance, List.mem_insertionSort] at ht
  exact specAll_mem _ (parse_generic_spec text) t ht

/-- C2 counterexample: a source window whose matched amounts include a
positive fee (`7.50`) but a zero principal (`0.00`) emits exactly ONE
record (the fee record), not two — the parent is suppressed by the
`abs(trans_amount) > 0` guard while the fee record is emitted
unconditionally on `fee > 0`. -/
theorem fee_split_not_always_two_records :
    parse_pdf "01/01/2025 Zero Test 0.00 7.50 4,000.00".data "capitec" =
      [{ date := ⟨2025, 1, 1⟩
         description := "Zero Test (Fee)"
         amount := mkRat 15 2
         typ := "debit"
         reference := "CAP-20250101-0000-FEE"
         category := some (some "Fees")
         fee := some 0
         balance := mkRat 4000 1 }] := by decide

/-- C2 amended: whenever a matched window yields `fee > 0` AND a nonzero
principal amount, exactly two records are emitted — the parent (with the
fee retained in its own `fee` field) followed by a fee record whose
amount is that fee, whose direction is debit, whose balance and date
equal the parent's, and whose description is the parent's description
suffixed with the `" (Fee)"` marker. -/
theorem capEmit_fee_split (n : ℕ) (td : Date) (desc : List Char) (cat : Option (List Char))
    (ta fee bal : ℚ) (hf : 0 < fee) (ht : ta ≠ 0) :
    capEmit n td desc cat ta fee bal =
      [capMain n td desc cat ta fee bal, capFee (n + 1) td desc fee bal] ∧
    (capMain n td desc cat ta fee bal).fee = some fee ∧
    (capFee (n + 1) td desc fee bal).amount = fee ∧
    (capFee (n + 1) td desc fee bal).typ = "debit" ∧
    (capFee (n + 1) td desc fee bal).balance = (capMain n td desc cat ta fee bal).balance ∧
    (capFee (n + 1) td desc fee bal).date = (capMain n td desc cat ta fee bal).date ∧
    (capFee (n + 1) td desc fee bal).description.data =
      (capMain n td desc cat ta fee bal).description.data ++ " (Fee)".data := by
  have hta : |ta| > 0 := abs_pos.mpr ht
  refine ⟨?_, rfl, rfl, rfl, rfl, rfl, rfl⟩
  unfold capEmit
  rw [if_pos hta, if_pos hf, if_pos hta]
  rfl

/-- Witness for the amended C2 at concrete window data. -/
theorem capEmit_fee_split_witness :
    capEmit 0 ⟨2025, 10, 21⟩ [] none 500 7.5 4000 =
      [capMain 0 ⟨2025, 10, 21⟩ [] none 500 7.5 4000,
       capFee 1 ⟨2025, 10, 21⟩ [] 7.5 4000] :=
  (capEmit_fee_split 0 ⟨2025, 10, 21⟩ [] none 500 7.5 4000
    (by norm_num) (by norm_num)).1

/-- C4: evaluation of the code at the failing input.  The line carries
exactly two trailing decimal amounts and the token `fee` occurs in the
extracted description, yet the emitted record has `fee = 0` and
`amount = 5.50` — the two-amount branch does NOT re-interpret the first
number as the fee (both sides of its `if 'fee' in ...` are the same up to
`abs`), contradicting the source's own comment
`"If 'fee' in description or category, treat first amount as fee"`. -/
theorem two_amount_fee_reinterpretation_missing :
    parse_pdf "01/01/2025 Monthly Admin Fee 5.50 4,000.00".data "capitec" =
      [{ date := ⟨2025, 1, 1⟩
         description := "Monthly Admin Fee"
         amount := mkRat 11 2
         typ := "debit"
         reference := "CAP-20250101-0000"
         category := some none
         fee := some 0
         balance := mkRat 4000 1 }] := by decide

/-- C5 counterexample: on the claimed input line the engine emits ONE
record with `balance = 0` and no fee record — the trailing category text
after the balance defeats the `\s*$` anchor of `pattern_3amt`, and the
balance token `4000.00` does not even match the thousands-grouped amount
pattern, so the line falls through to the embedded-amounts branch. -/
theorem fee_scenario_line_one_record :
    parse_pdf "21/10/2025 Cash Withdrawal 500.00 7.50 4000.00 Cash Withdrawal".data "capitec" =
      [{ date := ⟨2025, 10, 21⟩
         description := "Cash Withdrawal 4"
         amount := mkRat 500 1
         typ := "debit"
         reference := "CAP-20251021-0000"
         category := some (some "Cash Withdrawal")
         fee := some 0
         balance := 0 }] := by decide

/-- C5 amended: with the trailing category token dropped and the balance
written with a thousands separator (`21/10/2025 Cash Withdrawal 500.00
7.50 4,000.00` — the shape `pattern_3amt` actually accepts), the engine
emits exactly the two claimed records: the principal
(`amount=500.00, fee=7.50, balance=4000.00, debit`; its description is
empty because the whole text is consumed as the category) and a linked
fee record (`amount=7.50, balance=4000.00, debit`) marked with the
`" (Fee)"` suffix and the `Fees` category. -/
theorem fee_scenario_line_amended :
    parse_pdf "21/10/2025 Cash Withdrawal 500.00 7.50 4,000.00".data "capitec" =
      [{ date := ⟨2025, 10, 21⟩
         description := ""
         amount := mkRat 500 1
         typ := "debit"
         reference := "CAP-20251021-0000"
         category := some (some "Cash Withdrawal")
         fee := some (mkRat 15 2)
         balance := mkRat 4000 1 },
       { date := ⟨2025, 10, 21⟩
         description := " (Fee)"
         amount := mkRat 15 2
         typ := "debit"
         reference := "CAP-20251021-0001-FEE"
         category := some (some "Fees")
         fee := some 0
         balance := mkRat 4000 1 }] := by decide

/-- C9 counterexample: a record emitted by the TymeBank path carries
neither the `category` nor the `fee` key (both `none` in the dictionary
model), so not every emitted record carries all eight ParsedTransaction
fields. -/
theorem tymebank_record_missing_fields :
    parse_pdf "1 Jan 2025 Some Purchase Text\n- 100.00 - 4,000.00".data "tymebank" =
      [{ date := ⟨2025, 1, 1⟩
         description := "Some Purchase Text"
         amount := mkRat 100 1
         typ := "debit"
         reference := "TYME-20250101-0"
         category := none
         fee := none
         balance := mkRat 4000 1 }] := by decide

/-- C9 amended: every record of the Capitec path carries all eight
fields, with absent category represented by an explicit `None` value and
absent fee by `0.0` (the keys are always present); the TymeBank and
generic/unknown-bank paths omit the `category` and `fee` keys
entirely. -/
theorem parse_pdf_field_presence :
    (∀ (text : List Char) (t : Txn), t ∈ parse_pdf text "capitec" →
      (∃ c, t.category = some c) ∧ (∃ q, t.fee = some q)) ∧
    (∀ (text : List Char) (t : Txn), t ∈ parse_pdf text "tymebank" →
      t.category = none ∧ t.fee = none) ∧
    (∀ (text : List Char) (bank : String) (t : Txn), bank ≠ "tymebank" → bank ≠ "capitec" →
      t ∈ parse_pdf text bank → t.category = none ∧ t.fee = none) := by
  refine ⟨?_, ?_, ?_⟩
  · intro text t ht
    obtain ⟨k, hk⟩ := mem_parse_pdf_capitec text t ht
    exact ⟨hk.2.2.1, hk.2.2.2.1⟩
  · intro text t ht
    obtain ⟨k, hk⟩ := mem_parse_pdf_tymebank text t ht
    exact ⟨hk.2.2.1, hk.2.2.2.1⟩
  · intro text bank t h1 h2 ht
    obtain ⟨k, hk⟩ := mem_parse_pdf_generic text bank t h1 h2 ht
    exact ⟨hk.2.1, hk.2.2.1⟩

/-- Witness for the amended C9 at concrete parses of all three paths. -/
theorem parse_pdf_field_presence_witness :
    ((∃ c, ({ date := ⟨2025, 1, 1⟩, description := "Monthly Admin Fee", amount := mkRat 11 2,
              typ := "debit", reference := "CAP-20250101-0000", category := some none,
              fee := some 0, balance := mkRat 4000 1 } : Txn).category = some c) ∧
     (∃ q, ({ date := ⟨2025, 1, 1⟩, description := "Monthly Admin Fee", amount := mkRat 11 2,
              typ := "debit", reference := "CAP-20250101-0000", category := some none,
              fee := some 0, balance := mkRat 4000 1 } : Txn).fee = some q)) ∧
    (({ date := ⟨2025, 1, 1⟩, description := "Some Purchase Text", amount := mkRat 100 1,
        typ := "debit", reference := "TYME-20250101-0", category := none,
        fee := none, balance := mkRat 4000 1 } : Txn).category = none ∧
     ({ date := ⟨2025, 1, 1⟩, description := "Some Purchase Text", amount := mkRat 100 1,
        typ := "debit", reference := "TYME-20250101-0", category := none,
        fee := none, balance := mkRat 4000 1 } : Txn).fee = none) ∧
    (({ date := ⟨2025, 2, 1⟩, description := "Coffee Shop", amount := mkRat 45 1,
        typ := "debit", reference := "GEN-20250201-0", category := none,
        fee := none, balance := 0 } : Txn).category = none ∧
     ({ date := ⟨2025, 2, 1⟩, description := "Coffee Shop", amount := mkRat 45 1,
        typ := "debit", reference := "GEN-20250201-0", category := none,
        fee := none, balance := 0 } : Txn).fee = none) :=
  ⟨parse_pdf_field_presence.1 "01/01/2025 Monthly Admin Fee 5.50 4,000.00".data _
      (by decide),
   parse_pdf_field_presence.2.1 "1 Jan 2025 Some Purchase Text\n- 100.00 - 4,000.00".data _
      (by decide),
   parse_pdf_field_presence.2.2 "01/02/2025 Coffee Shop -45.00".data "other" _
      (by decide) (by decide) (by decide)⟩

/-- Modelled from the claim's words: tail of a well-formed decimal after
its leading digit group — thousands groups of exactly three digits, then
a decimal point and exactly two decimals, ending the token.  Returns the
remaining integer digits and the two fraction digits.  (Fuelled like the
engine's own matchers; any `fuel ≥ cs.length` is exact.) -/
def claimTailAux : ℕ → List Char → Option (List Char × List Char)
  | 0, _ => none
  | fuel + 1, cs =>
    match cs with
    | ',' :: rest =>
      if (rest.take 3).length == 3 && (rest.take 3).all Char.isDigit then
        match claimTailAux fuel (rest.drop 3) with
        | some (ds, fr) => some (rest.take 3 ++ ds, fr)
        | none => none
      else none
    | ['.', a, b] => if a.isDigit && b.isDigit then some ([], [a, b]) else none
    | _ => none

/-- Modelled from the claim's words, see `claimTailAux`. -/
def claimTail? (cs : List Char) : Option (List Char × List Char) :=
  claimTailAux cs.length cs

/-- Modelled from the claim's words: an unsigned well-formed decimal —
leading group of one to three digits, optional thousands groups, point,
two decimals.  Returns all integer digits and the fraction digits. -/
def claimBody? (cs : List Char) : Option (List Char × List Char) :=
  let ds := cs.takeWhile Char.isDigit
  if !ds.isEmpty && decide (ds.length ≤ 3) then
    match claimTail? (cs.drop ds.length) with
    | some (ds2, fr) => some (ds ++ ds2, fr)
    | none => none
  else none

/-- Numeric value of a parsed well-formed decimal. -/
def claimVal (p : List Char × List Char) : ℚ :=
  mkRat (Int.ofNat (digitsVal p.1 * 10 ^ p.2.length + digitsVal p.2)) (10 ^ p.2.length)

/-- Modelled from the claim's words: a well-formed decimal with optional
thousands separators and optional leading minus, together with its
value; `none` exactly on malformed tokens. -/
def claimNum? (cs : List Char) : Option ℚ :=
  match cs with
  | '-' :: rest => (claimBody? rest).map (fun p => -claimVal p)
  | _ => (claimBody? cs).map claimVal

lemma digit_char_ne (c : Char) (h : c.isDigit = true) :
    c ≠ ',' ∧ c ≠ '.' ∧ c ≠ '-' ∧ c ≠ '+' ∧ c ≠ ' ' ∧ c.isWhitespace = false := by
  refine ⟨?_, ?_, ?_, ?_, ?_, ?_⟩
  · intro he; rw [he] at h; exact absurd h (by decide)
  · intro he; rw [he] at h; exact absurd h (by decide)
  · intro he; rw [he] at h; exact absurd h (by decide)
  · intro he; rw [he] at h; exact absurd h (by decide)
  · intro he; rw [he] at h; exact absurd h (by decide)
  · by_contra hw
    simp only [Bool.not_eq_false] at hw
    have hd : ((c = ' ' ∨ c = '\t') ∨ c = '\x0d') ∨ c = '\n' := by
      simpa [Char.isWhitespace, Bool.or_eq_true, decide_eq_true_eq] using hw
    rcases hd with ((rfl | rfl) | rfl) | rfl <;> exact absurd h (by decide)

lemma dropWhile_all_false {p : Char → Bool} (l : List Char)
    (h : ∀ c ∈ l, p c = false) : l.dropWhile p = l := by
  cases l with
  | nil => rfl
  | cons c t =>
    rw [List.dropWhile_cons, h c (by simp)]
    simp

lemma wsTrim_eq_self (l : List Char) (h : ∀ c ∈ l, c.isWhitespace = false) :
    wsTrim l = l := by
  unfold wsTrim
  rw [dropWhile_all_false l h, dropWhile_all_false l.reverse
    (fun c hc => h c (List.mem_reverse.mp hc)), List.reverse_reverse]

lemma takeWhile_all_true {p : Char → Bool} (l : List Char)
    (h : ∀ c ∈ l, p c = true) : l.takeWhile p = l := by
  induction l with
  | nil => rfl
  | cons c t ih =>
    rw [List.takeWhile_cons, h c (by simp), ih (fun x hx => h x (by simp [hx]))]
    simp

/-- Generalisation of `takeWhile` over a digit block followed by a
non-digit (or nothing). -/
lemma takeWhile_digit_append' (a s : List Char) (ha : ∀ c ∈ a, c.isDigit = true)
    (hs : s = [] ∨ ∃ c t, s = c :: t ∧ c.isDigit = false) :
    (a ++ s).takeWhile Char.isDigit = a := by
  induction a with
  | nil =>
    rcases hs with rfl | ⟨c, t, rfl, hc⟩
    · rfl
    · simp [List.takeWhile_cons, hc]
  | cons c a ih =>
    have hc : c.isDigit = true := ha c (by simp)
    simp only [List.cons_append, List.takeWhile_cons, hc, if_true]
    rw [ih (fun x hx => ha x (by simp [hx]))]

lemma removeAll_single_cons (x c : Char) (r : List Char) :
    removeAll [x] (c :: r) = if c = x then removeAll [x] r else c :: removeAll [x] r := by
  rw [removeAll_eq]
  by_cases hc : c = x
  · subst hc
    simp [List.isPrefixOf]
  · simp [List.isPrefixOf, hc]
    intro he
    exact absurd he.symm hc

lemma removeAll_single_id (x : Char) (l : List Char) (h : ∀ c ∈ l, c ≠ x) :
    removeAll [x] l = l := by
  induction l with
  | nil => rfl
  | cons c t ih =>
    rw [removeAll_single_cons, if_neg (h c (by simp)), ih (fun y hy => h y (by simp [hy]))]

lemma removeAllAux_subset (pat : List Char) :
    ∀ fuel (cs : List Char) c, c ∈ removeAllAux pat fuel cs → c ∈ cs := by
  intro fuel
  induction fuel with
  | zero => intro cs c h; exact h
  | succ f ih =>
    intro cs c h
    match cs with
    | [] => simp only [removeAllAux] at h; exact absurd h (List.not_mem_nil c)
    | x :: rest =>
      simp only [removeAllAux] at h
      split at h
      · exact List.mem_cons_of_mem x (List.mem_of_mem_drop (ih _ c h))
      · rcases List.mem_cons.mp h with rfl | hm
        · exact List.mem_cons_self _ _
        · exact List.mem_cons_of_mem x (ih _ c hm)

lemma removeAll_subset (pat : List Char) (cs : List Char) (c : Char)
    (h : c ∈ removeAll pat cs) : c ∈ cs :=
  removeAllAux_subset pat cs.length cs c h

lemma wsTrim_subset (l : List Char) (c : Char) (h : c ∈ wsTrim l) : c ∈ l := by
  unfold wsTrim at h
  rw [List.mem_reverse] at h
  have h1 := (List.dropWhile_sublist (l := (l.dropWhile Char.isWhitespace).reverse)
    (p := Char.isWhitespace)).subset h
  rw [List.mem_reverse] at h1
  exact (List.dropWhile_sublist (l := l) (p := Char.isWhitespace)).subset h1

lemma takeWhile_all_false {p : Char → Bool} (l : List Char)
    (h : ∀ c ∈ l, p c = false) : l.takeWhile p = [] := by
  cases l with
  | nil => rfl
  | cons c t =>
    rw [List.takeWhile_cons, h c (by simp)]
    simp

lemma takeWhile_append_drop (p : Char → Bool) (l : List Char) :
    l.takeWhile p ++ l.drop (l.takeWhile p).length = l := by
  induction l with
  | nil => rfl
  | cons c t ih =>
    rw [List.takeWhile_cons]
    by_cases hc : p c
    · simp only [hc, if_true, List.cons_append, List.length_cons, List.drop_succ_cons]
      rw [ih]
    · simp [hc]

lemma claimTailAux_facts : ∀ fuel (cs ds2 fr : List Char),
    claimTailAux fuel cs = some (ds2, fr) →
    (∀ c ∈ ds2, c.isDigit = true) ∧ (∀ c ∈ fr, c.isDigit = true) ∧
    removeAll [','] cs = ds2 ++ '.' :: fr ∧
    (∀ c ∈ cs, c.isDigit = true ∨ c = ',' ∨ c = '.') := by
  intro fuel
  induction fuel with
  | zero => intro cs ds2 fr h; exact absurd h (by simp [claimTailAux])
  | succ f ih =>
    intro cs ds2 fr h
    simp only [claimTailAux] at h
    split at h
    · -- comma arm: cs = ',' :: rest
      next rest =>
        split at h
        · next hcond =>
            rw [Bool.and_eq_true, beq_iff_eq, List.all_eq_true] at hcond
            obtain ⟨hlen, hdig⟩ := hcond
            split at h
            · next ds0 fr0 heq =>
                injection h with h1
                injection h1 with hds hfr
                subst hds; subst hfr
                obtain ⟨ih1, ih2, ih3, ih4⟩ := ih _ _ _ heq
                match rest, hlen with
                | x :: y :: z :: rest3, _ =>
                  have hx : x.isDigit = true := hdig x (by simp [List.take])
                  have hy : y.isDigit = true := hdig y (by simp [List.take])
                  have hz : z.isDigit = true := hdig z (by simp [List.take])
                  have hdrop : (x :: y :: z :: rest3).drop 3 = rest3 := rfl
                  rw [hdrop] at ih3
                  refine ⟨?_, ih2, ?_, ?_⟩
                  · intro c hc
                    simp only [List.take, List.append_assoc, List.cons_append,
                      List.nil_append, List.mem_cons] at hc
                    rcases hc with rfl | rfl | rfl | hc
                    · exact hx
                    · exact hy
                    · exact hz
                    · exact ih1 c hc
                  · rw [removeAll_single_cons, if_pos rfl,
                      removeAll_single_cons, if_neg (digit_char_ne x hx).1,
                      removeAll_single_cons, if_neg (digit_char_ne y hy).1,
                      removeAll_single_cons, if_neg (digit_char_ne z hz).1, ih3]
                    simp [List.take]
                  · intro c hc
                    rcases List.mem_cons.mp hc with rfl | hc
                    · exact Or.inr (Or.inl rfl)
                    · rcases List.mem_cons.mp hc with rfl | hc
                      · exact Or.inl hx
                      · rcases List.mem_cons.mp hc with rfl | hc
                        · exact Or.inl hy
                        · rcases List.mem_cons.mp hc with rfl | hc
                          · exact Or.inl hz
                          · exact ih4 c hc
            · exact absurd h (by simp)
        · exact absurd h (by simp)
    · -- exact arm: cs = ['.', a, b]
      next a b =>
        split at h
        · next hab =>
            rw [Bool.and_eq_true] at hab
            injection h with h1
            injection h1 with hds hfr
            subst hds; subst hfr
            refine ⟨by simp, ?_, ?_, ?_⟩
            · intro c hc
              rcases List.mem_cons.mp hc with rfl | hc
              · exact hab.1
              · rcases List.mem_cons.mp hc with rfl | hc
                · exact hab.2
                · exact absurd hc (List.not_mem_nil c)
            · rw [removeAll_single_cons, if_neg (by decide),
                removeAll_single_cons, if_neg (digit_char_ne a hab.1).1,
                removeAll_single_cons, if_neg (digit_char_ne b hab.2).1]
              rfl
            · intro c hc
              rcases List.mem_cons.mp hc with rfl | hc
              · exact Or.inr (Or.inr rfl)
              · rcases List.mem_cons.mp hc with rfl | hc
                · exact Or.inl hab.1
                · rcases List.mem_cons.mp hc with rfl | hc
                  · exact Or.inl hab.2
                  · exact absurd hc (List.not_mem_nil c)
        · exact absurd h (by simp)
    · exact absurd h (by simp)

lemma removeAll_single_append (x : Char) (a b : List Char) (h : ∀ c ∈ a, c ≠ x) :
    removeAll [x] (a ++ b) = a ++ removeAll [x] b := by
  induction a with
  | nil => rfl
  | cons c t ih =>
    rw [List.cons_append, removeAll_single_cons, if_neg (h c (by simp)),
      ih (fun y hy => h y (by simp [hy])), List.cons_append]

lemma claimBody?_facts (cs ds fr : List Char) (h : claimBody? cs = some (ds, fr)) :
    ds ≠ [] ∧ (∀ c ∈ ds, c.isDigit = true) ∧ (∀ c ∈ fr, c.isDigit = true) ∧
    removeAll [','] cs = ds ++ '.' :: fr ∧
    (∀ c ∈ cs, c.isDigit = true ∨ c = ',' ∨ c = '.') ∧
    (∃ d cs', cs = d :: cs' ∧ d.isDigit = true) := by
  simp only [claimBody?] at h
  split at h
  · next hcond =>
      rw [Bool.and_eq_true] at hcond
      have hcond1 : (cs.takeWhile Char.isDigit).isEmpty = false := by
        simpa using hcond.1
      split at h
      · next ds2 fr0 heq =>
          injection h with h1
          injection h1 with hds hfr
          subst hds; subst hfr
          obtain ⟨t1, t2, t3, t4⟩ := claimTailAux_facts _ _ _ _ heq
          have hd0 : ∀ c ∈ cs.takeWhile Char.isDigit, c.isDigit = true :=
            fun c hc => List.mem_takeWhile_imp hc
          have hne : cs.takeWhile Char.isDigit ≠ [] := by
            intro he
            rw [he] at hcond1
            exact absurd hcond1 (by decide)
          have hsplit := takeWhile_append_drop Char.isDigit cs
          refine ⟨?_, ?_, t2, ?_, ?_, ?_⟩
          · intro he
            exact hne (List.append_eq_nil.mp he).1
          · intro c hc
            rcases List.mem_append.mp hc with hc | hc
            · exact hd0 c hc
            · exact t1 c hc
          · conv_lhs => rw [← hsplit]
            rw [removeAll_single_append _ _ _
              (fun c hc => (digit_char_ne c (hd0 c hc)).1), t3, List.append_assoc]
          · intro c hc
            conv at hc => rw [← hsplit]
            rcases List.mem_append.mp hc with hc | hc
            · exact Or.inl (hd0 c hc)
            · exact t4 c hc
          · cases hcs : cs with
            | nil => rw [hcs] at hne; exact absurd rfl hne
            | cons d cs' =>
              rw [hcs, List.takeWhile_cons] at hne
              by_cases hd : d.isDigit
              · exact ⟨d, cs', rfl, hd⟩
              · rw [if_neg (by simp [hd])] at hne
                exact absurd rfl hne
      · exact absurd h (by simp)
  · exact absurd h (by simp)

lemma pyFloatVal_shape (ds fr : List Char) (hne : ds ≠ [])
    (hd : ∀ c ∈ ds, c.isDigit = true) (hf : ∀ c ∈ fr, c.isDigit = true) :
    pyFloatVal? (ds ++ '.' :: fr) =
      some (mkRat (Int.ofNat (digitsVal ds * 10 ^ fr.length + digitsVal fr))
        (10 ^ fr.length)) := by
  have hip : (ds ++ '.' :: fr).takeWhile Char.isDigit = ds :=
    takeWhile_digit_append' ds _ hd (Or.inr ⟨'.', fr, rfl, by decide⟩)
  have hdsne : ds.isEmpty = false := by
    cases ds with
    | nil => exact absurd rfl hne
    | cons a b => rfl
  simp only [pyFloatVal?, hip, List.drop_left]
  rw [takeWhile_all_true fr hf, List.drop_length]
  simp only [List.isEmpty_nil, Bool.not_true, Bool.false_eq_true, if_false, hdsne,
    Bool.false_and]

lemma pyFloatVal_none (body : List Char) (h : ∀ c ∈ body, c.isDigit = false) :
    pyFloatVal? body = none := by
  have hip : body.takeWhile Char.isDigit = [] := takeWhile_all_false body h
  simp only [pyFloatVal?, hip, List.length_nil, List.drop_zero, List.isEmpty_nil,
    Bool.true_and]
  split
  · rfl
  · rename_i fr
    have hfr : ∀ c ∈ fr, c.isDigit = false := fun c hc =>
      h c (List.mem_cons_of_mem _ hc)
    rw [takeWhile_all_false fr hfr]
    simp
  · rfl

lemma pyFloat_shape (ds fr : List Char) (hne : ds ≠ [])
    (hd : ∀ c ∈ ds, c.isDigit = true) (hf : ∀ c ∈ fr, c.isDigit = true) :
    pyFloat? (ds ++ '.' :: fr) =
      some (mkRat (Int.ofNat (digitsVal ds * 10 ^ fr.length + digitsVal fr))
        (10 ^ fr.length)) := by
  have hws : ∀ c ∈ ds ++ '.' :: fr, c.isWhitespace = false := by
    intro c hc
    rcases List.mem_append.mp hc with hc | hc
    · exact (digit_char_ne c (hd c hc)).2.2.2.2.2
    · rcases List.mem_cons.mp hc with rfl | hc
      · decide
      · exact (digit_char_ne c (hf c hc)).2.2.2.2.2
  obtain ⟨d, ds', rfl⟩ : ∃ d ds', ds = d :: ds' := by
    cases ds with
    | nil => exact absurd rfl hne
    | cons d ds' => exact ⟨d, ds', rfl⟩
  have hdd : d.isDigit = true := hd d (by simp)
  unfold pyFloat?
  rw [wsTrim_eq_self _ hws, List.cons_append]
  split
  · rename_i r heq
    injection heq with h1
    exact absurd h1 (digit_char_ne d hdd).2.2.1
  · rename_i r heq
    injection heq with h1
    exact absurd h1 (digit_char_ne d hdd).2.2.2.1
  · rw [← List.cons_append]
    exact pyFloatVal_shape _ _ hne hd hf

lemma pyFloat_none_of_no_digit (cs : List Char) (h : ∀ c ∈ cs, c.isDigit = false) :
    pyFloat? cs = none := by
  have ht : ∀ c ∈ wsTrim cs, c.isDigit = false := fun c hc =>
    h c (wsTrim_subset cs c hc)
  unfold pyFloat?
  split
  · rename_i r heq
    have hr : ∀ c ∈ r, c.isDigit = false := by
      intro c hc
      apply ht c
      rw [heq]
      exact List.mem_cons_of_mem _ hc
    rw [pyFloatVal_none r hr]
    rfl
  · rename_i r heq
    have hr : ∀ c ∈ r, c.isDigit = false := by
      intro c hc
      apply ht c
      rw [heq]
      exact List.mem_cons_of_mem _ hc
    exact pyFloatVal_none r hr
  · exact pyFloatVal_none _ ht

/-- On an ASCII token with no digit and no letter, `float()` has nothing
to accept — no digit part, no `inf`/`nan` spelling, no non-ASCII digit —
so it raises and `parse_amount` answers zero.  (The letter/ASCII bounds
keep the statement inside the modeled domain of `pyFloatVal?`.) -/
lemma parse_amount_zero_of_ascii_symbol (cs : List Char)
    (h : ∀ c ∈ cs, c.isDigit = false ∧ c.isAlpha = false ∧ c.toNat < 128) :
    parse_amount cs = 0 := by
  have hcl : ∀ c ∈ wsTrim (removeAll [' '] (removeAll [','] cs)), c.isDigit = false :=
    fun c hc =>
      (h c (removeAll_subset _ _ _ (removeAll_subset _ _ _ (wsTrim_subset _ _ hc)))).1
  simp only [parse_amount]
  split
  · rfl
  · split
    · rename_i r heq
      have hr : ∀ c ∈ r, c.isDigit = false := by
        intro c hc
        apply hcl c
        rw [heq]
        exact List.mem_cons_of_mem _ hc
      rw [pyFloat_none_of_no_digit r hr]
    · rw [pyFloat_none_of_no_digit _ hcl]

lemma parse_amount_of_claimNum (cs : List Char) (v : ℚ)
    (h : claimNum? cs = some v) : parse_amount cs = v := by
  simp only [claimNum?] at h
  split at h
  · -- signed token: cs = '-' :: rest
    rename_i rest
    obtain ⟨⟨ds, fr⟩, hp, hv⟩ := Option.map_eq_some'.mp h
    obtain ⟨f1, f2, f3, f4, f5, f6⟩ := claimBody?_facts rest ds fr hp
    obtain ⟨d, cs', rfl, hd⟩ := f6
    have hchar : ∀ c ∈ ('-' :: d :: cs'), c.isWhitespace = false := by
      intro c hc
      rcases List.mem_cons.mp hc with rfl | hc
      · decide
      · rcases f5 c hc with hdig | rfl | rfl
        · exact (digit_char_ne c hdig).2.2.2.2.2
        · decide
        · decide
    simp only [parse_amount]
    split
    · rename_i hcond
      exfalso
      rw [wsTrim_eq_self _ hchar] at hcond
      simp at hcond
    · have h4 : removeAll [','] ('-' :: d :: cs') = '-' :: (ds ++ '.' :: fr) := by
        rw [removeAll_single_cons, if_neg (by decide), f4]
      have hnchar : ∀ c ∈ ('-' :: (ds ++ '.' :: fr)),
          c ≠ ' ' ∧ c.isWhitespace = false := by
        intro c hc
        rcases List.mem_cons.mp hc with rfl | hc
        · exact ⟨by decide, by decide⟩
        · rcases List.mem_append.mp hc with hc | hc
          · exact ⟨(digit_char_ne c (f2 c hc)).2.2.2.2.1,
              (digit_char_ne c (f2 c hc)).2.2.2.2.2⟩
          · rcases List.mem_cons.mp hc with rfl | hc
            · exact ⟨by decide, by decide⟩
            · exact ⟨(digit_char_ne c (f3 c hc)).2.2.2.2.1,
                (digit_char_ne c (f3 c hc)).2.2.2.2.2⟩
      rw [h4, removeAll_single_id _ _ (fun c hc => (hnchar c hc).1),
        wsTrim_eq_self _ (fun c hc => (hnchar c hc).2)]
      split
      · rename_i r heq
        injection heq with h1 h2
        subst h2
        rw [pyFloat_shape ds fr f1 f2 f3]
        simp only [claimVal] at hv
        exact hv
      · rename_i hcontra
        exact absurd rfl (hcontra (ds ++ '.' :: fr))
  · -- unsigned token
    obtain ⟨⟨ds, fr⟩, hp, hv⟩ := Option.map_eq_some'.mp h
    obtain ⟨f1, f2, f3, f4, f5, f6⟩ := claimBody?_facts cs ds fr hp
    obtain ⟨d, cs', rfl, hd⟩ := f6
    have hchar : ∀ c ∈ (d :: cs'), c.isWhitespace = false := by
      intro c hc
      rcases f5 c hc with hdig | rfl | rfl
      · exact (digit_char_ne c hdig).2.2.2.2.2
      · decide
      · decide
    simp only [parse_amount]
    split
    · rename_i hcond
      exfalso
      rw [wsTrim_eq_self _ hchar] at hcond
      simp at hcond
      rcases hcond with ⟨rfl, rfl⟩
      exact absurd hd (by decide)
    · have hnchar : ∀ c ∈ (ds ++ '.' :: fr), c ≠ ' ' ∧ c.isWhitespace = false := by
        intro c hc
        rcases List.mem_append.mp hc with hc | hc
        · exact ⟨(digit_char_ne c (f2 c hc)).2.2.2.2.1,
            (digit_char_ne c (f2 c hc)).2.2.2.2.2⟩
        · rcases List.mem_cons.mp hc with rfl | hc
          · exact ⟨by decide, by decide⟩
          · exact ⟨(digit_char_ne c (f3 c hc)).2.2.2.2.1,
              (digit_char_ne c (f3 c hc)).2.2.2.2.2⟩
      rw [f4, removeAll_single_id _ _ (fun c hc => (hnchar c hc).1),
        wsTrim_eq_self _ (fun c hc => (hnchar c hc).2)]
      obtain ⟨e, ds0, rfl⟩ : ∃ e ds0, ds = e :: ds0 := by
        cases ds with
        | nil => exact absurd rfl f1
        | cons e ds0 => exact ⟨e, ds0, rfl⟩
      have hed : e.isDigit = true := f2 e (by simp)
      rw [List.cons_append]
      split
      · rename_i r heq
        injection heq with h1
        exact absurd h1 (digit_char_ne e hed).2.2.1
      · rw [← List.cons_append]
        rw [pyFloat_shape _ fr f1 f2 f3]
        simp only [claimVal] at hv
        exact hv

/-- C7 counterexample, two parts.  (1) The token `--5.00` is malformed —
the claim's well-formed-decimal grammar (optional thousands separators,
optional single leading minus) rejects the doubled minus — yet
`parse_amount` returns `5`, not `0`: the code strips one leading minus,
and `float` then accepts the remaining `-5.00`, so not every malformed
token is treated as zero.  (2) The zero-value-drops-the-window rule is
not engine-wide: the generic parser has no positivity guard, so on the
line `01/02/2025 Coffee Shop 0.00` (unknown bank) the engine emits a
record whose amount is exactly `0`. -/
theorem malformed_token_parses_nonzero :
    (claimNum? "--5.00".data = none ∧ parse_amount "--5.00".data = mkRat 5 1 ∧
      (mkRat 5 1 : ℚ) ≠ 0) ∧
    parse_pdf "01/02/2025 Coffee Shop 0.00".data "other" =
      [{ date := ⟨2025, 2, 1⟩
         description := "Coffee Shop"
         amount := 0
         typ := "credit"
         reference := "GEN-20250201-0"
         category := none
         fee := none
         balance := 0 }] := by decide

/-- C7 amended: the numeric-token parser is total and (a) maps every
well-formed decimal (optional thousands separators, optional single
leading minus) to its value, (b) maps every ASCII token containing no
digit and no letter to zero (`float` raises on such a token: it has no
digit part and cannot spell `inf`/`nan` or a non-ASCII digit), and
(c) every record emitted on the Capitec and TymeBank paths has a
strictly positive amount (`abs(trans_amount) > 0` / `fee > 0` guards on
Capitec, the `amount > 0` append guard on TymeBank).  The original
claim's "any malformed token parses to zero" is refuted by the
counterexample's doubled minus, and its engine-wide positivity by the
counterexample's zero-amount generic record, so both had to be narrowed
as above. -/
theorem parse_amount_total_and_guarded_positive :
    (∀ (cs : List Char) (v : ℚ), claimNum? cs = some v → parse_amount cs = v) ∧
    (∀ cs : List Char, (∀ c ∈ cs, c.isDigit = false ∧ c.isAlpha = false ∧ c.toNat < 128) →
      parse_amount cs = 0) ∧
    (∀ (text : List Char) (t : Txn), t ∈ parse_pdf text "capitec" → 0 < t.amount) ∧
    (∀ (text : List Char) (t : Txn), t ∈ parse_pdf text "tymebank" → 0 < t.amount) := by
  refine ⟨parse_amount_of_claimNum, parse_amount_zero_of_ascii_symbol, ?_, ?_⟩
  · intro text t ht
    obtain ⟨k, hk⟩ := mem_parse_pdf_capitec text t ht
    exact hk.1
  · intro text t ht
    obtain ⟨k, hk⟩ := mem_parse_pdf_tymebank text t ht
    exact hk.1

/-- Witness for the amended C7: a well-formed decimal with thousands
separator, a digit-free letter-free ASCII token, and concrete Capitec
and TymeBank records. -/
theorem parse_amount_total_and_guarded_positive_witness :
    parse_amount "1,234.56".data = mkRat 123456 100 ∧
    parse_amount "-.".data = 0 ∧
    0 < ({ date := ⟨2025, 10, 21⟩, description := "", amount := mkRat 500 1,
           typ := "debit", reference := "CAP-20251021-0000",
           category := some (some "Cash Withdrawal"), fee := some (mkRat 15 2),
           balance := mkRat 4000 1 } : Txn).amount ∧
    0 < ({ date := ⟨2025, 1, 1⟩, description := "Some Purchase Text",
           amount := mkRat 100 1, typ := "debit", reference := "TYME-20250101-0",
           category := none, fee := none, balance := mkRat 4000 1 } : Txn).amount :=
  ⟨parse_amount_total_and_guarded_positive.1 "1,234.56".data _ (by decide),
   parse_amount_total_and_guarded_positive.2.1 "-.".data (by decide),
   parse_amount_total_and_guarded_positive.2.2.1
     "21/10/2025 Cash Withdrawal 500.00 7.50 4,000.00".data _ (by decide),
   parse_amount_total_and_guarded_positive.2.2.2
     "1 Jan 2025 Some Purchase Text\n- 100.00 - 4,000.00".data _ (by decide)⟩

end LSWeb
